import Mathlib

/-!
# module-depend: import extraction and transitive dependency resolution

A shallow embedding of `module-depend.go` and `error_report.go`.

* Go strings are byte sequences: `GoString := List Byte`.
* The standard-library functions the program calls but does not define
  (`strings.ToUpper`, `filepath.Base`) are parameters `up` and `base` of the
  definitions that use them; the general theorems hold for every choice.
  `asciiUpper` and `unixBase` are concrete instances used on concrete inputs.
* The file system and the binary parsers of the standard library
  (`os.Stat`, `elf.Open`, `pe.Open`) are a snapshot `fs : GoString → FileInfo`.
* `panic(string)` is `Except.error`; the loop of `listDepsFromDir` is a
  function of a fuel argument, `none` meaning that the fuel ran out.
-/

namespace ModuleDepend

/-! ## Data model -/

/-- One byte of a Go string or of a byte slice. -/
abbrev Byte := Fin 256

/-- A Go `string`: an immutable sequence of bytes. -/
abbrev GoString := List Byte

/-- The struct `moduleName`. -/
structure ModuleName where
  name : GoString
  caseless : Bool
deriving DecidableEq, Repr

/-- The registry `[]moduleName`. -/
abbrev Registry := List ModuleName

/-! ## The registry: `appendIfNew`, `appendModImp` -/

/-- The key that `appendIfNew` compares: `strings.ToUpper` of the name when
`caseless`, the name itself otherwise. -/
def caseKey (up : GoString → GoString) (caseless : Bool) (s : GoString) : GoString :=
  if caseless then up s else s

/-- The search loop of `appendIfNew` (`for _, m := range *imp`), with its
`break` on the first hit: the value of `found` after the loop. -/
def appendIfNewFound (up : GoString → GoString) (mi : GoString) (caseless : Bool) :
    List ModuleName → Bool
  | [] => false
  | m :: rest =>
    let name := if caseless then up m.name else m.name
    if mi = name then true else appendIfNewFound up mi caseless rest

/-- The function `appendIfNew`: the new value of `*imp`. -/
def appendIfNew (up : GoString → GoString) (imp : Registry) (modImp : GoString)
    (caseless : Bool) : Registry :=
  let mi := if caseless then up modImp else modImp
  let found := appendIfNewFound up mi caseless imp
  if !found then imp ++ [{ name := modImp, caseless := caseless }] else imp

/-- The function `appendModImp`: `appendIfNew` for every name, in order. -/
def appendModImp (up : GoString → GoString) (imp : Registry) :
    List GoString → Bool → Registry
  | [], _ => imp
  | m :: rest, caseless => appendModImp up (appendIfNew up imp m caseless) rest caseless

/-! ## `findModFile` -/

/-- The loop of `findModFile` from index `i` on: the index of the first path
whose base name equals the module name under the module's case policy,
`-1` when the loop falls through. -/
def findModFileFrom (up base : GoString → GoString) ( mod : ModuleName) :
    List GoString → Int → Int
  | [], _ => -1
  | path :: rest, i =>
    let name := base path
    let eq := if mod.caseless then decide (up name = up mod.name) else decide (name = mod.name)
    if eq then i else findModFileFrom up base mod rest (i + 1)

/-- The function `findModFile`. -/
def findModFile (up base : GoString → GoString) (files : List GoString)
    ( mod : ModuleName) : Int :=
  findModFileFrom up base mod files 0

/-! ## Files, errors, machine arithmetic -/

/-- The ways a run stops abnormally. The first two are the string panics of
`appendImports`, which `checkPanic` turns into an `Error: ...` line and exit
status 1; `runtime` is a Go runtime error (slice bounds or index out of
range), which `checkPanic` panics again with. -/
inductive Err where
  /-- The panic `"Not a file: '" + modPath + "'"`. -/
  | notAFile (modPath : GoString)
  /-- The panic `"Unknown module type: '" + modPath + "'"`. -/
  | unknownModuleType (modPath : GoString)
  /-- A Go runtime error. -/
  | runtime
deriving DecidableEq, Repr

/-- Whether the panic value is a string, the case `checkPanic` reports. -/
def Err.isMessage : Err → Bool
  | .notAFile _ => true
  | .unknownModuleType _ => true
  | .runtime => false

/-- The modulus of `uint32`. -/
def u32 : Nat := 4294967296

/-- Addition of `uint32` values. -/
def add32 (a b : Nat) : Nat := (a + b) % u32

/-- Subtraction of `uint32` values (wraps below zero). -/
def sub32 (a b : Nat) : Nat := (a % u32 + u32 - b % u32) % u32

/-- The struct `pe.DataDirectory`. -/
structure DataDirectory where
  VirtualAddress : Nat
  Size : Nat
deriving DecidableEq, Repr

/-- The fields of `pe.OptionalHeader32` and `pe.OptionalHeader64` that the
program reads; `is64` tells which of the two the header is. -/
structure OptionalHeader where
  is64 : Bool
  NumberOfRvaAndSizes : Nat
  DataDirectory : Fin 16 → DataDirectory

/-- The fields of `pe.Section` that the program reads; `Data` is the result
of the method `Data()`, `none` when it returns an error. -/
structure Section where
  VirtualAddress : Nat
  VirtualSize : Nat
  Data : Option (List Byte)
deriving DecidableEq, Repr

/-- A `pe.File` as returned by `pe.Open`. -/
structure PEFile where
  OptionalHeader : Option OptionalHeader
  Sections : List Section

/-- An `elf.File` as returned by `elf.Open`; `ImportedLibraries` is the
result of that method (the `DT_NEEDED` names in file order), `none` when it
returns an error. -/
structure ELFFile where
  ImportedLibraries : Option (List GoString)
deriving DecidableEq, Repr

/-- What the operating system and the parsers of the standard library answer
for one path: `isRegular` is `os.Stat` succeeding with a regular mode,
`elfOpen` and `peOpen` are the results of `elf.Open` and `pe.Open`, `none`
when they return an error. -/
structure FileInfo where
  isRegular : Bool
  elfOpen : Option ELFFile
  peOpen : Option PEFile

/-- The constant `pe.IMAGE_DIRECTORY_ENTRY_IMPORT`. -/
def IMAGE_DIRECTORY_ENTRY_IMPORT : Fin 16 := 1

/-! ## The parsers -/

/-- The function `isFile`. -/
def isFile (fs : GoString → FileInfo) (path : GoString) : Bool :=
  (fs path).isRegular

/-- The scan of `getStringPE` from `start` on (the argument is
`section[start:]`): the bytes before the first zero byte, `none` when there
is no zero byte. -/
def scanStringPE : List Byte → Option GoString
  | [] => none
  | b :: rest => if b = 0 then some [] else (scanStringPE rest).map (fun s => b :: s)

/-- The function `getStringPE`; `none` stands for `ok = false`. -/
def getStringPE (sect : List Byte) (start : Int) : Option GoString :=
  if start < 0 ∨ start ≥ (sect.length : Int) then none
  else scanStringPE (sect.drop start.toNat)

/-- The value `binary.LittleEndian.Uint32` reads from four bytes. -/
def le32 (b0 b1 b2 b3 : Byte) : Nat :=
  b0.val + b1.val * 256 + b2.val * 65536 + b3.val * 16777216

/-- The loop `for len(d) >= 20` of `appendImportsPE` over the import
directory table `d`: the value of `modImp` it builds. `data` is the whole
section, `va` is `ds.VirtualAddress`; `int` has 64 bits. -/
def walkImportTable (data : List Byte) (va : Nat) : List Byte → List GoString
  | b0 :: b1 :: b2 :: b3 :: _ :: _ :: _ :: _ :: _ :: _ :: _ :: _ ::
      b12 :: b13 :: b14 :: b15 :: _ :: _ :: _ :: _ :: rest =>
    let originalFirstThunk := le32 b0 b1 b2 b3
    if originalFirstThunk = 0 then []
    else
      let name := le32 b12 b13 b14 b15
      match getStringPE data (Int.ofNat (sub32 name va)) with
      | some m => m :: walkImportTable data va rest
      | none => walkImportTable data va rest
  | _ => []

/-- The section search of `appendImportsPE`: the first section whose
virtual-address range holds `addr` (the sum is a `uint32` sum). -/
def findSection (addr : Nat) : List Section → Option Section
  | [] => none
  | s :: rest =>
    if s.VirtualAddress ≤ addr ∧ addr < add32 s.VirtualAddress s.VirtualSize then some s
    else findSection addr rest

/-- The function `appendImportsELF`: its result and the new value of `*imp`. -/
def appendImportsELF (up : GoString → GoString) (fs : GoString → FileInfo)
    (imp : Registry) (modPath : GoString) : Bool × Registry :=
  match (fs modPath).elfOpen with
  | none => (false, imp)
  | some f =>
    match f.ImportedLibraries with
    | none => (false, imp)
    | some modImp => (true, appendModImp up imp modImp false)

/-- The function `appendImportsPE`: its result and the new value of `*imp`,
or the runtime error of the slice expression
`data[idd.VirtualAddress-ds.VirtualAddress:]`. -/
def appendImportsPE (up : GoString → GoString) (fs : GoString → FileInfo)
    (imp : Registry) (modPath : GoString) : Except Err (Bool × Registry) :=
  match (fs modPath).peOpen with
  | none => .ok (false, imp)
  | some f =>
    match f.OptionalHeader with
    | none => .ok (false, imp)
    | some oh =>
      let dd_length := oh.NumberOfRvaAndSizes
      if dd_length < IMAGE_DIRECTORY_ENTRY_IMPORT.val + 1 then .ok (true, imp)
      else
        let idd := oh.DataDirectory IMAGE_DIRECTORY_ENTRY_IMPORT
        match findSection idd.VirtualAddress f.Sections with
        | none => .ok (true, imp)
        | some ds =>
          match ds.Data with
          | none => .ok (false, imp)
          | some data =>
            let off := sub32 idd.VirtualAddress ds.VirtualAddress
            if off > data.length then .error Err.runtime
            else
              let d := data.drop off
              let modImp := walkImportTable data ds.VirtualAddress d
              .ok (true, appendModImp up imp modImp true)

/-- The function `appendImports`: the new value of `*imp`, or the panic. -/
def appendImports (up : GoString → GoString) (fs : GoString → FileInfo)
    (imp : Registry) (modPath : GoString) : Except Err Registry :=
  if !isFile fs modPath then .error (Err.notAFile modPath)
  else
    match appendImportsELF up fs imp modPath with
    | (true, imp1) => .ok imp1
    | (false, imp1) =>
      match appendImportsPE up fs imp1 modPath with
      | .error e => .error e
      | .ok (true, imp2) => .ok imp2
      | .ok (false, _) => .error (Err.unknownModuleType modPath)

/-- The function `getImports`. -/
def getImports (up : GoString → GoString) (fs : GoString → FileInfo) :
    List GoString → Registry → Except Err Registry
  | [], imports => .ok imports
  | m :: rest, imports =>
    if m = [] then getImports up fs rest imports
    else
      match appendImports up fs imports m with
      | .error e => .error e
      | .ok imports1 => getImports up fs rest imports1

/-! ## The resolver: `listDepsFromDir` -/

/-- What the loop of `listDepsFromDir` has when it ends: the value of `deps`
that is returned, and the final value of the worklist `modules`. -/
structure Resolved where
  deps : List GoString
  modules : Registry
deriving DecidableEq, Repr

/-- The loop `for i := 0; i < len(modules); i++` of `listDepsFromDir`, from
the state `(modules, i, deps)`, run for at most `fuel` iterations; `none`
when the fuel does not suffice. -/
def listDepsLoop (up base : GoString → GoString) (fs : GoString → FileInfo)
    (files : List GoString) : Nat → Registry → Nat → List GoString →
    Option (Except Err Resolved)
  | 0, _, _, _ => none
  | fuel + 1, modules, i, deps =>
    match modules[i]? with
    | none => some (.ok { deps := deps, modules := modules })
    | some m =>
      let f := findModFile up base files m
      if f ≥ 0 then
        match files[f.toNat]? with
        | none => some (.error Err.runtime)
        | some path =>
          match appendImports up fs modules path with
          | .error e => some (.error e)
          | .ok modules1 => listDepsLoop up base fs files fuel modules1 (i + 1) (deps ++ [path])
      else listDepsLoop up base fs files fuel modules (i + 1) deps

/-- The function `listDepsFromDir`, with the final worklist next to the
returned `deps`. -/
def listDepsFromDir (up base : GoString → GoString) (fs : GoString → FileInfo)
    (fuel : Nat) (modules : Registry) (files : List GoString) :
    Option (Except Err Resolved) :=
  listDepsLoop up base fs files fuel modules 0 []

/-! ## Concrete instances of the library functions -/

/-- `strings.ToUpper` on ASCII strings: the bytes `a`..`z` lose 32, every
other byte is kept. (Go maps non-ASCII text by Unicode rules; this instance is
used on ASCII inputs only.) -/
def asciiUpper (s : GoString) : GoString :=
  s.map (fun b => if 97 ≤ b.val ∧ b.val ≤ 122 then ⟨b.val - 32, by omega⟩ else b)

/-- The last path element scan of `filepath.Base`: the bytes after the last
separator `/` (byte 47). -/
def lastElem : GoString → GoString → GoString
  | [], acc => acc
  | b :: rest, acc => if b.val = 47 then lastElem rest [] else lastElem rest (acc ++ [b])

/-- Trailing separators removed, as `filepath.Base` does first. -/
def stripTrailingSep (s : GoString) : GoString :=
  (s.reverse.dropWhile (fun b => b.val = 47)).reverse

/-- `filepath.Base` on Unix: `.` for the empty path, `/` for a path of
separators only, the last element otherwise. -/
def unixBase (path : GoString) : GoString :=
  if path = [] then [46]
  else
    let e := lastElem (stripTrailingSep path) []
    if e = [] then [47] else e

/-- The bytes of an ASCII literal. -/
def str (s : String) : GoString :=
  s.toList.map (fun c => Fin.ofNat c.toNat)

/-! ## Specification-side notions -/

/-- Two names compare equal under a case policy: their upper-cased forms are
equal when the policy is case-insensitive, the names are equal otherwise. -/
def sameUnder (up : GoString → GoString) : Bool → GoString → GoString → Prop
  | true, x, y => up x = up y
  | false, x, y => x = y

instance sameUnderDecidable (up : GoString → GoString) (c : Bool) (x y : GoString) :
    Decidable (sameUnder up c x y) := by
  cases c <;> (unfold sameUnder; infer_instance)

/-- The base name of `path` equals the module name under the module's own
case policy. -/
def matchesMod (up base : GoString → GoString) (m : ModuleName) (path : GoString) : Prop :=
  sameUnder up m.caseless (base path) m.name

instance matchesModDecidable (up base : GoString → GoString) (m : ModuleName)
    (path : GoString) : Decidable (matchesMod up base m path) := by
  unfold matchesMod; infer_instance

/-- The first pool entry whose base name equals the module name under the
module's own case policy, if there is one. -/
def firstMatch (up base : GoString → GoString) (files : List GoString)
    (m : ModuleName) : Option GoString :=
  files.find? (fun p => decide (matchesMod up base m p))

/-- The registry built from the empty registry by a sequence of
`appendIfNew` calls, one per `(name, caseless)` pair. -/
def buildRegistry (up : GoString → GoString) (ops : List (GoString × Bool)) : Registry :=
  ops.foldl (fun r op => appendIfNew up r op.1 op.2) []

/-- No two entries at positions `i < j` compare equal under the case policy
of the earlier entry `i`. -/
def DistinctUnderEarlier (up : GoString → GoString) (r : Registry) : Prop :=
  ∀ (i j : Nat) (a b : ModuleName), i < j → r[i]? = some a → r[j]? = some b → ¬ sameUnder up a.caseless a.name b.name

/-- No two entries at positions `i < j` compare equal under the case policy
of the later entry `j`. -/
def DistinctUnderLater (up : GoString → GoString) (r : Registry) : Prop :=
  ∀ (i j : Nat) (a b : ModuleName), i < j → r[i]? = some a → r[j]? = some b → ¬ sameUnder up b.caseless a.name b.name

/-- The names `appendImportsPE` hands to `appendModImp` for an opened PE
file: `none` when it returns false, `some []` when it returns true without
touching the registry. -/
def peImports (f : PEFile) : Except Err (Option (List GoString)) :=
  match f.OptionalHeader with
  | none => .ok none
  | some oh =>
    if oh.NumberOfRvaAndSizes < IMAGE_DIRECTORY_ENTRY_IMPORT.val + 1 then .ok (some [])
    else
      match findSection (oh.DataDirectory IMAGE_DIRECTORY_ENTRY_IMPORT).VirtualAddress
          f.Sections with
      | none => .ok (some [])
      | some ds =>
        match ds.Data with
        | none => .ok none
        | some data =>
          let off := sub32 (oh.DataDirectory IMAGE_DIRECTORY_ENTRY_IMPORT).VirtualAddress
            ds.VirtualAddress
          if off > data.length then .error Err.runtime
          else .ok (some (walkImportTable data ds.VirtualAddress (data.drop off)))

/-- What `appendImports` reads from the file at `path`: the imported names
and the case policy they are tagged with (false for ELF, true for PE), or
the panic. -/
def importsOf (fs : GoString → FileInfo) (path : GoString) :
    Except Err (List GoString × Bool) :=
  if !(fs path).isRegular then .error (Err.notAFile path)
  else
    match (fs path).elfOpen.bind (fun f => f.ImportedLibraries) with
    | some names => .ok (names, false)
    | none =>
      match (fs path).peOpen with
      | none => .error (Err.unknownModuleType path)
      | some f =>
        match peImports f with
        | .error e => .error e
        | .ok none => .error (Err.unknownModuleType path)
        | .ok (some names) => .ok (names, true)

/-- The names imported by the files of the pool that parse. -/
def poolNames (fs : GoString → FileInfo) (files : List GoString) : List GoString :=
  files.flatMap (fun p =>
    match importsOf fs p with
    | .ok (names, _) => names
    | .error _ => [])

/-! ## Concrete file systems used at concrete inputs -/

/-- A regular ELF file with the given `DT_NEEDED` names. -/
def elfFile (names : List GoString) : FileInfo :=
  { isRegular := true, elfOpen := some { ImportedLibraries := some names }, peOpen := none }

/-- A path that is not there. -/
def noFile : FileInfo :=
  { isRegular := false, elfOpen := none, peOpen := none }

/-- A pool directory `d` with the ELF file `d/A`, which needs `B`, and the
ELF file `d/B`, which needs nothing. -/
def fsAB (path : GoString) : FileInfo :=
  if path = str "d/A" then elfFile [str "B"]
  else if path = str "d/B" then elfFile []
  else noFile

/-- A pool directory `d` whose two ELF files need each other: `d/A` needs
`B` and `d/B` needs `A`. -/
def fsCycle (path : GoString) : FileInfo :=
  if path = str "d/A" then elfFile [str "B"]
  else if path = str "d/B" then elfFile [str "A"]
  else noFile

/-- A pool directory `d` with the files `d/A.DLL` and `d/a.dll`, which need
nothing, and the ELF file `d/x`, which needs `a.dll`. -/
def fsMixed (path : GoString) : FileInfo :=
  if path = str "d/A.DLL" then elfFile []
  else if path = str "d/a.dll" then elfFile []
  else if path = str "d/x" then elfFile [str "a.dll"]
  else noFile

/-- The resolved set is closed under the imports of its files: for every path
in the result and every name that the file at that path imports, tagged with
the case policy of the file's format, the first candidate matching the name,
if there is one, is in the result. -/
def DepsClosed (up base : GoString → GoString) (fs : GoString → FileInfo)
    (files : List GoString) (r : Resolved) : Prop :=
  ∀ path ∈ r.deps, ∀ (names : List GoString) (c : Bool),
    importsOf fs path = .ok (names, c) → ∀ n ∈ names, ∀ q,
      firstMatch up base files { name := n, caseless := c } = some q → q ∈ r.deps

/-- The loop of `listDepsFromDir`, started in the state `(modules, i)`,
gets to process the worklist entry `m`: it is the entry at `i`, or the entry
at `i` is passed without a failure (it has no match, or its match parses) and
the loop gets to `m` from the next state. -/
inductive Processes (up base : GoString → GoString) (fs : GoString → FileInfo)
    (files : List GoString) : Registry → Nat → ModuleName → Prop where
  | here (modules : Registry) (i : Nat) (m : ModuleName) :
      modules[i]? = some m → Processes up base fs files modules i m
  | skip (modules : Registry) (i : Nat) (m0 m : ModuleName) :
      modules[i]? = some m0 → firstMatch up base files m0 = none →
      Processes up base fs files modules (i + 1) m → Processes up base fs files modules i m
  | step (modules modules1 : Registry) (i : Nat) (m0 m : ModuleName) (path : GoString) :
      modules[i]? = some m0 → firstMatch up base files m0 = some path →
      appendImports up fs modules path = .ok modules1 →
      Processes up base fs files modules1 (i + 1) m → Processes up base fs files modules i m

/-- A pool directory `d` with the file `d/bad`, a regular file that is
neither ELF nor PE. -/
def fsBad (path : GoString) : FileInfo :=
  if path = str "d/bad" then { isRegular := true, elfOpen := none, peOpen := none }
  else noFile

/-- The names of a list that compare equal, under the policy `c`, to no
earlier name: `names` without every name that equals, under `c`, one of
`earlier` or one that stands before it in `names`. -/
def keepNew (up : GoString → GoString) (c : Bool) : List GoString → List GoString →
    List GoString
  | _, [] => []
  | earlier, n :: rest =>
    if ∃ x ∈ earlier, sameUnder up c x n then keepNew up c (earlier ++ [n]) rest
    else n :: keepNew up c (earlier ++ [n]) rest

/-- The two fields of a 20-byte import directory table entry that the program
reads: the original first thunk (bytes 0..3) and the name RVA (bytes 12..15),
both little-endian. -/
structure ImportDescriptor where
  OriginalFirstThunk : Nat
  Name : Nat
deriving DecidableEq, Repr

/-- The complete 20-byte entries of an import directory table, in table
order. -/
def idtEntries : List Byte → List ImportDescriptor
  | b0 :: b1 :: b2 :: b3 :: _ :: _ :: _ :: _ :: _ :: _ :: _ :: _ ::
      b12 :: b13 :: b14 :: b15 :: _ :: _ :: _ :: _ :: rest =>
    { OriginalFirstThunk := le32 b0 b1 b2 b3, Name := le32 b12 b13 b14 b15 } :: idtEntries rest
  | _ => []

/-- The entries that precede the first entry whose original first thunk is
zero (all complete entries when there is none). -/
def idtBeforeTerminator (d : List Byte) : List ImportDescriptor :=
  (idtEntries d).takeWhile (fun e => decide (e.OriginalFirstThunk ≠ 0))

/-- The name an entry points to: the string `getStringPE` reads from the
section `data` at the name RVA less the section's virtual address. -/
def entryName (data : List Byte) (va : Nat) (e : ImportDescriptor) : Option GoString :=
  getStringPE data (Int.ofNat (sub32 e.Name va))

/-- A 20-byte import directory table entry with original first thunk `1` and
the given name RVA bytes. -/
def idtEntryBytes (n0 n1 : Byte) : List Byte :=
  [1, 0, 0, 0, 0, 0, 0, 0, 0, 0, 0, 0, n0, n1, 0, 0, 0, 0, 0, 0]

/-- A section of 62 bytes at virtual address 4096: two table entries, both
with name RVA 4156 (bytes `3C 10 00 00`, offset 60), the all-zero terminator
entry, and at offset 60 the string `A` with its zero byte. -/
def dupSectionData : List Byte :=
  idtEntryBytes 60 16 ++ idtEntryBytes 60 16 ++ List.replicate 20 0 ++ [65, 0]

/-- A PE file whose import directory (data directory 1, at virtual address
4096) lies at the start of its one section, `dupSectionData`. -/
def dupPE : PEFile :=
  { OptionalHeader := some
      { is64 := false, NumberOfRvaAndSizes := 16,
        DataDirectory := fun i =>
          if i = 1 then { VirtualAddress := 4096, Size := 60 }
          else { VirtualAddress := 0, Size := 0 } },
    Sections := [{ VirtualAddress := 4096, VirtualSize := 4096, Data := some dupSectionData }] }

/-- A pool directory `d` with the PE file `d/dup.exe`, whose import table
names `A` twice, and the ELF file `d/dup.so`, whose dynamic section lists
`libc.so.6` twice. -/
def fsDup (path : GoString) : FileInfo :=
  if path = str "d/dup.exe" then { isRegular := true, elfOpen := none, peOpen := some dupPE }
  else if path = str "d/dup.so" then elfFile [str "libc.so.6", str "libc.so.6"]
  else noFile

/-- A pool directory `d` with the PE file `d/dup.exe`, whose import table
names `A`, and the ELF file `d/A`, which needs nothing. -/
def fsUnmatched (path : GoString) : FileInfo :=
  if path = str "d/dup.exe" then { isRegular := true, elfOpen := none, peOpen := some dupPE }
  else if path = str "d/A" then elfFile []
  else noFile

/-- The module name has a matching candidate in the pool. -/
def hasMatch (up base : GoString → GoString) (files : List GoString) (m : ModuleName) : Bool :=
  (firstMatch up base files m).isSome

/-- The returned `deps` of a run, or its panic. -/
def resultDeps (r : Except Err Resolved) : Except Err (List GoString) :=
  match r with
  | .ok x => .ok x.deps
  | .error e => .error e

/-- A pool directory `d` with four regular files that `elf.Open` rejects and
`pe.Open` accepts: `d/obj.o` has no optional header; `d/one.exe` has an
optional header with one data directory; `d/short.exe` has its import
directory at virtual address 4100 in a section at 4096 of virtual size 4096
whose raw data is empty; `d/wrap.exe` has its import directory at the start of
a section at virtual address 4294967256 (`2^32 - 40`) whose raw data is one
table entry with name RVA 0, the terminator entry, and the string `A`. -/
def fsPE (path : GoString) : FileInfo :=
  if path = str "d/obj.o" then
    { isRegular := true, elfOpen := none,
      peOpen := some { OptionalHeader := none, Sections := [] } }
  else if path = str "d/one.exe" then
    { isRegular := true, elfOpen := none,
      peOpen := some
        { OptionalHeader := some
            { is64 := true, NumberOfRvaAndSizes := 1,
              DataDirectory := fun _ => { VirtualAddress := 4096, Size := 40 } },
          Sections := [{ VirtualAddress := 4096, VirtualSize := 4096,
                         Data := some dupSectionData }] } }
  else if path = str "d/short.exe" then
    { isRegular := true, elfOpen := none,
      peOpen := some
        { OptionalHeader := some
            { is64 := false, NumberOfRvaAndSizes := 16,
              DataDirectory := fun _ => { VirtualAddress := 4100, Size := 40 } },
          Sections := [{ VirtualAddress := 4096, VirtualSize := 4096, Data := some [] }] } }
  else if path = str "d/wrap.exe" then
    { isRegular := true, elfOpen := none,
      peOpen := some
        { OptionalHeader := some
            { is64 := false, NumberOfRvaAndSizes := 16,
              DataDirectory := fun _ => { VirtualAddress := 4294967256, Size := 40 } },
          Sections := [{ VirtualAddress := 4294967256, VirtualSize := 39,
                         Data := some (idtEntryBytes 0 0 ++ List.replicate 20 0 ++ [65, 0]) }] } }
  else noFile

/-! ## The candidate pool: `listFilesFromDir`, `walkDir` -/

/-- What `os.Stat` and `os.ReadDir` show at a path and below it, as a finite
tree: `missing` when `os.Stat` returns an error, `file` for a regular file,
`other` for a mode that is neither regular nor a directory, and `dir` for a
directory with the entries `os.ReadDir` returns (name and what is at the
joined path), `readErr` telling whether `os.ReadDir` also returns an error. -/
inductive Node where
  | missing
  | file
  | other
  | dir (readErr : Bool) (entries : List (GoString × Node))

/-- The string panics of `walkDir`. -/
inductive WalkErr where
  /-- The panic `"Too many directory recursion levels"`. -/
  | tooManyLevels
  /-- The panic `err.Error()` of a failed `os.Stat` or `os.ReadDir` at level 0. -/
  | osError (path : GoString)
  /-- The panic `"Not a regular file or directory: '" + path + "'"`. -/
  | notFileOrDir (path : GoString)
deriving DecidableEq, Repr

mutual
/-- The function `walkDir`: the new value of `*files`, or the panic. `node` is
what the operating system shows at `path`; `level` is `*level`; `join` is
`filepath.Join`. -/
def walkDir (join : GoString → GoString → GoString) :
    Node → List GoString → GoString → Nat → Except WalkErr (List GoString)
  | node, files, path, level =>
    if level > 1024 then .error WalkErr.tooManyLevels
    else
      match node with
      | .missing => if level = 0 then .error (WalkErr.osError path) else .ok files
      | .dir readErr entries =>
        if readErr = true ∧ level = 0 ∧ entries.length = 0 then .error (WalkErr.osError path)
        else walkEntries join entries files path level
      | .file => .ok (files ++ [path])
      | .other => if level = 0 then .error (WalkErr.notFileOrDir path) else .ok files
/-- The loop `for _, lsItem := range lsDir` of `walkDir`; the names `.` and
`..` are bytes 46 and 46 46. -/
def walkEntries (join : GoString → GoString → GoString) :
    List (GoString × Node) → List GoString → GoString → Nat →
    Except WalkErr (List GoString)
  | [], files, _, _ => .ok files
  | (name, n) :: rest, files, path, level =>
    if name = [46] ∨ name = [46, 46] then walkEntries join rest files path level
    else
      match walkDir join n files (join path name) (level + 1) with
      | .error e => .error e
      | .ok files1 => walkEntries join rest files1 path level
end

/-- The loop of `listFilesFromDir` over the roots `dirs`; `stat` gives what the
operating system shows at each root. -/
def listFilesLoop (join : GoString → GoString → GoString) (stat : GoString → Node) :
    List GoString → List GoString → Except WalkErr (List GoString)
  | [], files => .ok files
  | path :: rest, files =>
    if path = [] then listFilesLoop join stat rest files
    else
      match walkDir join (stat path) files path 0 with
      | .error e => .error e
      | .ok files1 => listFilesLoop join stat rest files1

/-- The function `listFilesFromDir`. -/
def listFilesFromDir (join : GoString → GoString → GoString) (stat : GoString → Node)
    (dirs : List GoString) : Except WalkErr (List GoString) :=
  listFilesLoop join stat dirs []

mutual
/-- The level, counted from this node as level 0, of the deepest entry below
it; 0 when it has no entries. -/
def height : Node → Nat
  | .dir _ entries => heightEntries entries
  | _ => 0
/-- One more than the greatest height of the entries; 0 for no entries. -/
def heightEntries : List (GoString × Node) → Nat
  | [] => 0
  | (_, n) :: rest => max (height n + 1) (heightEntries rest)
end

mutual
/-- The paths of the regular files of a tree, in the order of the traversal. -/
def regularFiles (join : GoString → GoString → GoString) : Node → GoString → List GoString
  | .file, path => [path]
  | .dir _ entries, path => regularFilesIn join entries path
  | _, _ => []
/-- The paths of the regular files below the entries of a directory. -/
def regularFilesIn (join : GoString → GoString → GoString) :
    List (GoString × Node) → GoString → List GoString
  | [], _ => []
  | (name, n) :: rest, path =>
    regularFiles join n (join path name) ++ regularFilesIn join rest path
end

mutual
/-- No entry of the tree is named `.` or `..` (`os.ReadDir` returns no such
entry). -/
def noDots : Node → Prop
  | .dir _ entries => noDotsIn entries
  | _ => True
/-- No entry of the list, and none below, is named `.` or `..`. -/
def noDotsIn : List (GoString × Node) → Prop
  | [] => True
  | (name, n) :: rest => name ≠ [46] ∧ name ≠ [46, 46] ∧ noDots n ∧ noDotsIn rest
end

/-- A chain of `n` nested directories named `d` with a regular file named `d`
at the bottom: its deepest entry lies at level `n`. -/
def chain : Nat → Node
  | 0 => Node.file
  | n + 1 => Node.dir false [([100], chain n)]

/-- The path `path/name`. -/
def joinSlash (path name : GoString) : GoString :=
  path ++ [47] ++ name

/-- A section of 46 bytes at virtual address 4096: one table entry with name
RVA 4136 (bytes `28 10 00 00`, offset 40), the all-zero terminator entry, and
at offset 40 the string `A.DLL` with its zero byte. -/
def caseSectionData : List Byte :=
  idtEntryBytes 40 16 ++ List.replicate 20 0 ++ [65, 46, 68, 76, 76, 0]

/-- Two pool directories: the PE file `x/a.dll`, whose import table names
`A.DLL`, and the ELF file `y/A.DLL`, which needs nothing. -/
def fsCase (path : GoString) : FileInfo :=
  if path = str "x/a.dll" then
    { isRegular := true, elfOpen := none,
      peOpen := some
        { OptionalHeader := some
            { is64 := false, NumberOfRvaAndSizes := 16,
              DataDirectory := fun _ => { VirtualAddress := 4096, Size := 40 } },
          Sections := [{ VirtualAddress := 4096, VirtualSize := 4096,
                         Data := some caseSectionData }] } }
  else if path = str "y/A.DLL" then elfFile []
  else noFile

/-- A pool directory `d` with the ELF file `d/a`, which needs `A`, and the
ELF file `d/A`, which needs nothing. -/
def fsLower (path : GoString) : FileInfo :=
  if path = str "d/a" then elfFile [str "A"]
  else if path = str "d/A" then elfFile []
  else noFile

/-! ## Lemmas on the registry -/

theorem sameUnder_iff_caseKey (up : GoString → GoString) (c : Bool) (x y : GoString) :
    sameUnder up c x y ↔ caseKey up c x = caseKey up c y := by
  cases c <;> simp [sameUnder, caseKey]

theorem sameUnder_of_eq (up : GoString → GoString) (c : Bool) (x : GoString) :
    sameUnder up c x x := by
  cases c <;> simp [sameUnder]

theorem appendIfNewFound_iff (up : GoString → GoString) (n : GoString) (c : Bool)
    (r : Registry) :
    appendIfNewFound up (if c then up n else n) c r = true ↔
      ∃ m ∈ r, sameUnder up c m.name n := by
  induction r with
  | nil => simp [appendIfNewFound]
  | cons m rest ih =>
    simp only [appendIfNewFound, List.mem_cons, exists_eq_or_imp]
    by_cases h : (if c then up n else n) = (if c then up m.name else m.name)
    · simp only [h, if_true, true_iff]
      left
      cases c <;> simp_all [sameUnder]
    · rw [if_neg h, ih]
      constructor
      · intro h1; exact Or.inr h1
      · rintro (h1 | h1)
        · exfalso; apply h; cases c <;> simp_all [sameUnder]
        · exact h1

theorem appendIfNew_of_mem (up : GoString → GoString) (r : Registry) (n : GoString)
    (c : Bool) (h : ∃ m ∈ r, sameUnder up c m.name n) : appendIfNew up r n c = r := by
  have := (appendIfNewFound_iff up n c r).2 h
  simp [appendIfNew, this]

theorem appendIfNew_of_not_mem (up : GoString → GoString) (r : Registry) (n : GoString)
    (c : Bool) (h : ¬ ∃ m ∈ r, sameUnder up c m.name n) :
    appendIfNew up r n c = r ++ [{ name := n, caseless := c }] := by
  have : appendIfNewFound up (if c then up n else n) c r = false := by
    rw [← Bool.not_eq_true, appendIfNewFound_iff]; exact h
  simp [appendIfNew, this]

theorem appendIfNew_cases (up : GoString → GoString) (r : Registry) (n : GoString)
    (c : Bool) :
    ((∃ m ∈ r, sameUnder up c m.name n) ∧ appendIfNew up r n c = r) ∨
    ((¬ ∃ m ∈ r, sameUnder up c m.name n) ∧
      appendIfNew up r n c = r ++ [{ name := n, caseless := c }]) := by
  by_cases h : ∃ m ∈ r, sameUnder up c m.name n
  · exact Or.inl ⟨h, appendIfNew_of_mem up r n c h⟩
  · exact Or.inr ⟨h, appendIfNew_of_not_mem up r n c h⟩

theorem distinctUnderLater_append (up : GoString → GoString) (r : Registry) (e : ModuleName)
    (hr : DistinctUnderLater up r) (he : ¬ ∃ m ∈ r, sameUnder up e.caseless m.name e.name) :
    DistinctUnderLater up (r ++ [e]) := by
  intro i j a b hij ha hb
  by_cases hj : j < r.length
  · rw [List.getElem?_append_left hj] at hb
    rw [List.getElem?_append_left (by omega)] at ha
    exact hr i j a b hij ha hb
  · have hjlen : j < (r ++ [e]).length := by
      by_contra hcon
      rw [List.getElem?_eq_none (by omega)] at hb
      cases hb
    simp only [List.length_append, List.length_singleton] at hjlen
    have hje : j = r.length := by omega
    subst hje
    rw [List.getElem?_append_left (by omega)] at ha
    simp at hb
    subst hb
    intro hsame
    exact he ⟨a, List.getElem?_mem ha, hsame⟩

theorem buildRegistry_snoc (up : GoString → GoString) (ops : List (GoString × Bool))
    (n : GoString) (c : Bool) :
    buildRegistry up (ops ++ [(n, c)]) = appendIfNew up (buildRegistry up ops) n c := by
  simp [buildRegistry, List.foldl_append]

/-! ## Lemmas on `findModFile` -/

theorem findModFile_test_eq (up base : GoString → GoString) (m : ModuleName) (p : GoString) :
    (if m.caseless then decide (up (base p) = up m.name) else decide (base p = m.name))
      = decide (matchesMod up base m p) := by
  cases hc : m.caseless <;> simp [matchesMod, sameUnder, hc]

theorem findModFileFrom_cases (up base : GoString → GoString) (m : ModuleName)
    (files : List GoString) (i : Int) :
    (findModFileFrom up base m files i = -1 ∧ firstMatch up base files m = none ∧
        ∀ p ∈ files, ¬ matchesMod up base m p) ∨
    (∃ (k : Nat) (p : GoString), findModFileFrom up base m files i = i + (k : Int) ∧
        files[k]? = some p ∧ firstMatch up base files m = some p ∧ matchesMod up base m p ∧
        ∀ (j : Nat) (q : GoString), j < k → files[j]? = some q → ¬ matchesMod up base m q) := by
  induction files generalizing i with
  | nil => left; simp [findModFileFrom, firstMatch]
  | cons p rest ih =>
    simp only [findModFileFrom, findModFile_test_eq, firstMatch, List.find?_cons]
    by_cases hp : matchesMod up base m p
    · right
      refine ⟨0, p, ?_⟩
      simp [hp]
    · simp only [hp, decide_False, Bool.false_eq_true, if_false]
      rcases ih (i + 1) with ⟨h1, h2, h3⟩ | ⟨k, q, h1, h2, h3, h4, h5⟩
      · left
        refine ⟨h1, h2, ?_⟩
        intro x hx
        rcases List.mem_cons.1 hx with rfl | hx
        · exact hp
        · exact h3 x hx
      · right
        refine ⟨k + 1, q, ?_, ?_, h3, h4, ?_⟩
        · rw [h1]; push_cast; ring
        · simpa using h2
        · intro j x hj hx
          cases j with
          | zero => simp at hx; subst hx; exact hp
          | succ j => exact h5 j x (by omega) (by simpa using hx)

theorem findModFile_cases (up base : GoString → GoString) (m : ModuleName)
    (files : List GoString) :
    (findModFile up base files m = -1 ∧ firstMatch up base files m = none ∧
        ∀ p ∈ files, ¬ matchesMod up base m p) ∨
    (∃ (k : Nat) (p : GoString), findModFile up base files m = (k : Int) ∧
        files[k]? = some p ∧ firstMatch up base files m = some p ∧ matchesMod up base m p ∧
        ∀ (j : Nat) (q : GoString), j < k → files[j]? = some q → ¬ matchesMod up base m q) := by
  simpa [findModFile] using findModFileFrom_cases up base m files 0

/-! ## The registry contract (C3, C4) -/

/-- C3: `appendIfNew(r, n, c)` leaves `r` unchanged when some entry of `r`
has a name equal to `n` under the policy `c` (upper-cased forms equal when `c`
is true, names equal when `c` is false), and otherwise returns `r` with the
single entry `{name: n, caseless: c}` appended at the end; in both cases the
entries already in `r` keep their values and order. -/
theorem appendIfNew_contract (up : GoString → GoString) (r : Registry) (n : GoString)
    (c : Bool) :
    ((∃ m ∈ r, sameUnder up c m.name n) → appendIfNew up r n c = r) ∧
    ((¬ ∃ m ∈ r, sameUnder up c m.name n) →
      appendIfNew up r n c = r ++ [{ name := n, caseless := c }]) ∧
    (appendIfNew up r n c).take r.length = r := by
  refine ⟨appendIfNew_of_mem up r n c, appendIfNew_of_not_mem up r n c, ?_⟩
  rcases appendIfNew_cases up r n c with ⟨_, h⟩ | ⟨_, h⟩ <;> simp [h]

/-- C3 at concrete inputs: `kernel32.dll` inserted case-insensitively after
`KERNEL32.DLL` leaves the registry unchanged, and inserted case-sensitively
it is appended. -/
theorem appendIfNew_contract_witness :
    ((∃ m ∈ [ModuleName.mk (str "KERNEL32.DLL") true],
        sameUnder asciiUpper true m.name (str "kernel32.dll")) ∧
      appendIfNew asciiUpper [ModuleName.mk (str "KERNEL32.DLL") true] (str "kernel32.dll") true
        = [ModuleName.mk (str "KERNEL32.DLL") true]) ∧
    ((¬ ∃ m ∈ [ModuleName.mk (str "KERNEL32.DLL") true],
        sameUnder asciiUpper false m.name (str "kernel32.dll")) ∧
      appendIfNew asciiUpper [ModuleName.mk (str "KERNEL32.DLL") true] (str "kernel32.dll") false
        = [ModuleName.mk (str "KERNEL32.DLL") true, ModuleName.mk (str "kernel32.dll") false]) :=
  ⟨⟨by decide, (appendIfNew_contract asciiUpper _ _ true).1 (by decide)⟩,
   ⟨by decide, (appendIfNew_contract asciiUpper _ _ false).2.1 (by decide)⟩⟩

/-- C4, as stated, fails: after the case-insensitive `A.DLL` and the
case-sensitive `a.dll` the registry holds both, and they compare equal under
the policy of the earlier entry (upper-cased). -/
theorem registry_distinct_under_earlier_fails :
    ¬ DistinctUnderEarlier asciiUpper
        (buildRegistry asciiUpper [(str "A.DLL", true), (str "a.dll", false)]) := by
  intro h
  exact h 0 1 (ModuleName.mk (str "A.DLL") true) (ModuleName.mk (str "a.dll") false)
    (by decide) (by decide) (by decide) (by decide)

/-- C4, amended: in every registry built from the empty registry by any
sequence of `appendIfNew` calls, no two entries at positions `i < j` compare
equal under the case policy of the later entry `j`, the policy the check at
insertion time uses. -/
theorem registry_distinct_under_later (up : GoString → GoString)
    (ops : List (GoString × Bool)) :
    DistinctUnderLater up (buildRegistry up ops) := by
  induction ops using List.reverseRecOn with
  | nil =>
    intro i j a b _ ha _
    simp [buildRegistry] at ha
  | append_singleton ops op ih =>
    obtain ⟨n, c⟩ := op
    rw [buildRegistry_snoc]
    rcases appendIfNew_cases up (buildRegistry up ops) n c with ⟨_, h⟩ | ⟨hn, h⟩
    · rw [h]; exact ih
    · rw [h]; exact distinctUnderLater_append up _ _ ih hn

/-! ## `findModFile` returns the first match (C5) -/

/-- C5: `findModFile` returns the smallest index `i` such that the base name
of `files[i]` equals the module name under the module's own case policy, and
returns `-1` exactly when no candidate's base name matches; it returns nothing
else. -/
theorem findModFile_first_match (up base : GoString → GoString) (files : List GoString)
    (m : ModuleName) :
    (findModFile up base files m = -1 ↔ ∀ p ∈ files, ¬ matchesMod up base m p) ∧
    (∀ i : Nat, findModFile up base files m = (i : Int) ↔
      ((∃ p, files[i]? = some p ∧ matchesMod up base m p) ∧
        ∀ (j : Nat) (q : GoString), j < i → files[j]? = some q → ¬ matchesMod up base m q)) ∧
    (findModFile up base files m = -1 ∨
      ∃ i : Nat, i < files.length ∧ findModFile up base files m = (i : Int)) := by
  rcases findModFile_cases up base m files with ⟨h1, _, h3⟩ | ⟨k, p, h1, h2, _, h4, h5⟩
  · refine ⟨⟨fun _ => h3, fun _ => h1⟩, ?_, Or.inl h1⟩
    intro i
    constructor
    · intro h; rw [h1] at h; omega
    · rintro ⟨⟨q, hq, hm⟩, _⟩
      exact absurd hm (h3 q (List.getElem?_mem hq))
  · have hk : k < files.length := by
      rcases List.getElem?_eq_some.1 h2 with ⟨h, _⟩
      exact h
    refine ⟨⟨?_, ?_⟩, ?_, Or.inr ⟨k, hk, h1⟩⟩
    · intro h; rw [h1] at h; omega
    · intro h; exact absurd h4 (h p (List.getElem?_mem h2))
    · intro i
      constructor
      · intro h
        have : i = k := by rw [h1] at h; omega
        subst this
        exact ⟨⟨p, h2, h4⟩, h5⟩
      · rintro ⟨⟨q, hq, hm⟩, hlt⟩
        rcases Nat.lt_trichotomy i k with hik | hik | hik
        · exact absurd hm (h5 i q hik hq)
        · rw [h1, hik]
        · exact absurd h4 (hlt k p hik h2)

/-! ## Lemmas on `appendModImp` and `appendImports` -/

theorem appendModImp_nil (up : GoString → GoString) (r : Registry) (c : Bool) :
    appendModImp up r [] c = r := rfl

theorem appendModImp_cons (up : GoString → GoString) (r : Registry) (n : GoString)
    (names : List GoString) (c : Bool) :
    appendModImp up r (n :: names) c = appendModImp up (appendIfNew up r n c) names c := rfl

theorem appendIfNew_extends (up : GoString → GoString) (r : Registry) (n : GoString)
    (c : Bool) : ∃ t, appendIfNew up r n c = r ++ t := by
  rcases appendIfNew_cases up r n c with ⟨_, h⟩ | ⟨_, h⟩
  · exact ⟨[], by simp [h]⟩
  · exact ⟨_, h⟩

theorem appendModImp_extends (up : GoString → GoString) (r : Registry)
    (names : List GoString) (c : Bool) : ∃ t, appendModImp up r names c = r ++ t := by
  induction names generalizing r with
  | nil => exact ⟨[], by simp [appendModImp]⟩
  | cons n names ih =>
    obtain ⟨t1, h1⟩ := appendIfNew_extends up r n c
    obtain ⟨t2, h2⟩ := ih (appendIfNew up r n c)
    exact ⟨t1 ++ t2, by rw [appendModImp_cons, h2, h1, List.append_assoc]⟩

theorem appendIfNew_covers (up : GoString → GoString) (r : Registry) (n : GoString)
    (c : Bool) : ∃ m ∈ appendIfNew up r n c, sameUnder up c m.name n := by
  rcases appendIfNew_cases up r n c with ⟨⟨m, hm, hs⟩, h⟩ | ⟨_, h⟩
  · exact ⟨m, by rw [h]; exact hm, hs⟩
  · exact ⟨{ name := n, caseless := c }, by rw [h]; simp, sameUnder_of_eq up c n⟩

theorem appendModImp_covers (up : GoString → GoString) (r : Registry)
    (names : List GoString) (c : Bool) :
    ∀ n ∈ names, ∃ m ∈ appendModImp up r names c, sameUnder up c m.name n := by
  induction names generalizing r with
  | nil => intro n hn; cases hn
  | cons n0 names ih =>
    intro n hn
    rw [appendModImp_cons]
    rcases List.mem_cons.1 hn with rfl | hn
    · obtain ⟨m, hm, hs⟩ := appendIfNew_covers up r n c
      obtain ⟨t, ht⟩ := appendModImp_extends up (appendIfNew up r n c) names c
      exact ⟨m, by rw [ht]; exact List.mem_append_left _ hm, hs⟩
    · exact ih (appendIfNew up r n0 c) n hn

theorem appendImportsPE_eq (up : GoString → GoString) (fs : GoString → FileInfo)
    (imp : Registry) (modPath : GoString) :
    appendImportsPE up fs imp modPath =
      match (fs modPath).peOpen with
      | none => .ok (false, imp)
      | some f =>
        match peImports f with
        | .error e => .error e
        | .ok none => .ok (false, imp)
        | .ok (some names) => .ok (true, appendModImp up imp names true) := by
  unfold appendImportsPE peImports
  cases (fs modPath).peOpen with
  | none => rfl
  | some f =>
    simp only
    cases f.OptionalHeader with
    | none => rfl
    | some oh =>
      simp only
      split
      · rfl
      · cases findSection (oh.DataDirectory IMAGE_DIRECTORY_ENTRY_IMPORT).VirtualAddress
            f.Sections with
        | none => rfl
        | some ds =>
          simp only
          cases ds.Data with
          | none => rfl
          | some data =>
            simp only
            split <;> rfl

theorem appendImports_eq (up : GoString → GoString) (fs : GoString → FileInfo)
    (imp : Registry) (modPath : GoString) :
    appendImports up fs imp modPath =
      match importsOf fs modPath with
      | .error e => .error e
      | .ok (names, c) => .ok (appendModImp up imp names c) := by
  unfold appendImports importsOf isFile
  cases (fs modPath).isRegular with
  | false => rfl
  | true =>
    simp only [Bool.not_true, Bool.false_eq_true, if_false]
    unfold appendImportsELF
    cases (fs modPath).elfOpen with
    | none =>
      simp only [Option.bind, appendImportsPE_eq]
      cases (fs modPath).peOpen with
      | none => rfl
      | some f =>
        simp only
        cases peImports f with
        | error e => rfl
        | ok o => cases o <;> rfl
    | some ef =>
      cases hl : ef.ImportedLibraries with
      | none =>
        simp only [Option.bind, hl, appendImportsPE_eq]
        cases (fs modPath).peOpen with
        | none => rfl
        | some f =>
          simp only
          cases peImports f with
          | error e => rfl
          | ok o => cases o <;> rfl
      | some names => simp [Option.bind, hl]

/-! ## The resolver loop, one iteration at a time -/

theorem listDepsLoop_succ (up base : GoString → GoString) (fs : GoString → FileInfo)
    (files : List GoString) (fuel : Nat) (modules : Registry) (i : Nat)
    (deps : List GoString) :
    listDepsLoop up base fs files (fuel + 1) modules i deps =
      match modules[i]? with
      | none => some (.ok { deps := deps, modules := modules })
      | some m =>
        match firstMatch up base files m with
        | none => listDepsLoop up base fs files fuel modules (i + 1) deps
        | some path =>
          match importsOf fs path with
          | .error e => some (.error e)
          | .ok (names, c) =>
            listDepsLoop up base fs files fuel (appendModImp up modules names c) (i + 1)
              (deps ++ [path]) := by
  rw [listDepsLoop]
  cases modules[i]? with
  | none => rfl
  | some m =>
    simp only
    rcases findModFile_cases up base m files with ⟨h1, h2, _⟩ | ⟨k, p, h1, h2, h3, _, _⟩
    · rw [h1, h2]
      simp
    · rw [h1, h3]
      simp only [ge_iff_le, Int.natCast_nonneg, if_true, Int.toNat_ofNat, h2, appendImports_eq]
      cases importsOf fs p with
      | error e => rfl
      | ok x => rfl

theorem listDepsLoop_done (up base : GoString → GoString) (fs : GoString → FileInfo)
    (files : List GoString) (fuel : Nat) (modules : Registry) (i : Nat)
    (deps : List GoString) (h : modules.length ≤ i) :
    listDepsLoop up base fs files (fuel + 1) modules i deps =
      some (.ok { deps := deps, modules := modules }) := by
  rw [listDepsLoop_succ, List.getElem?_eq_none h]

/-- More fuel does not change a result the loop has reached. -/
theorem listDepsLoop_mono (up base : GoString → GoString) (fs : GoString → FileInfo)
    (files : List GoString) (fuel : Nat) :
    ∀ (modules : Registry) (i : Nat) (deps : List GoString) (res : Except Err Resolved),
      listDepsLoop up base fs files fuel modules i deps = some res →
      ∀ fuel1, fuel ≤ fuel1 → listDepsLoop up base fs files fuel1 modules i deps = some res := by
  induction fuel with
  | zero => intro modules i deps res h; simp [listDepsLoop] at h
  | succ fuel ih =>
    intro modules i deps res h fuel1 hle
    obtain ⟨f1, rfl⟩ : ∃ f1, fuel1 = f1 + 1 := ⟨fuel1 - 1, by omega⟩
    rw [listDepsLoop_succ] at h ⊢
    cases hm : modules[i]? with
    | none => rw [hm] at h; exact h
    | some m =>
      rw [hm] at h
      simp only at h ⊢
      cases hf : firstMatch up base files m with
      | none => rw [hf] at h; exact ih _ _ _ _ h f1 (by omega)
      | some path =>
        rw [hf] at h
        simp only at h ⊢
        cases hi : importsOf fs path with
        | error e => rw [hi] at h; exact h
        | ok x =>
          rw [hi] at h
          exact ih _ _ _ _ h f1 (by omega)

/-- The result of the loop does not depend on the fuel it was given. -/
theorem listDepsLoop_unique (up base : GoString → GoString) (fs : GoString → FileInfo)
    (files : List GoString) (fuel1 fuel2 : Nat) (modules : Registry) (i : Nat)
    (deps : List GoString) (r1 r2 : Except Err Resolved)
    (h1 : listDepsLoop up base fs files fuel1 modules i deps = some r1)
    (h2 : listDepsLoop up base fs files fuel2 modules i deps = some r2) : r1 = r2 := by
  have a := listDepsLoop_mono up base fs files fuel1 modules i deps r1 h1 (max fuel1 fuel2)
    (le_max_left _ _)
  have b := listDepsLoop_mono up base fs files fuel2 modules i deps r2 h2 (max fuel1 fuel2)
    (le_max_right _ _)
  rw [a] at b
  exact Option.some.inj b

/-! ## What a successful run returns -/

theorem drop_of_getElem? {α : Type} (l : List α) (i : Nat) (a : α) (h : l[i]? = some a) :
    l.drop i = a :: l.drop (i + 1) := by
  rcases List.getElem?_eq_some.1 h with ⟨hi, ha⟩
  rw [List.drop_eq_getElem_cons hi, ha]

theorem getElem?_append_of_some {α : Type} (l t : List α) (i : Nat) (a : α)
    (h : l[i]? = some a) : (l ++ t)[i]? = some a := by
  rcases List.getElem?_eq_some.1 h with ⟨hi, _⟩
  rw [List.getElem?_append_left hi, h]

theorem listDepsLoop_ok_spec (up base : GoString → GoString) (fs : GoString → FileInfo)
    (files : List GoString) (fuel : Nat) :
    ∀ (modules : Registry) (i : Nat) (deps : List GoString) (r : Resolved),
      listDepsLoop up base fs files fuel modules i deps = some (.ok r) →
      (∃ t, r.modules = modules ++ t) ∧
      r.deps = deps ++ (r.modules.drop i).filterMap (firstMatch up base files) := by
  induction fuel with
  | zero => intro modules i deps r h; simp [listDepsLoop] at h
  | succ fuel ih =>
    intro modules i deps r h
    rw [listDepsLoop_succ] at h
    cases hm : modules[i]? with
    | none =>
      rw [hm] at h
      simp only [Option.some.injEq, Except.ok.injEq] at h
      subst h
      have hi : modules.length ≤ i := List.getElem?_eq_none_iff.1 hm
      exact ⟨⟨[], by simp⟩, by simp [List.drop_eq_nil_of_le hi]⟩
    | some m =>
      rw [hm] at h
      simp only at h
      cases hf : firstMatch up base files m with
      | none =>
        rw [hf] at h
        obtain ⟨⟨t, ht⟩, hd⟩ := ih _ _ _ _ h
        refine ⟨⟨t, ht⟩, ?_⟩
        have hri : r.modules[i]? = some m := by
          rw [ht]; exact getElem?_append_of_some _ _ _ _ hm
        rw [hd, drop_of_getElem? _ _ _ hri, List.filterMap_cons, hf]
      | some path =>
        rw [hf] at h
        simp only at h
        cases hi : importsOf fs path with
        | error e => rw [hi] at h; simp at h
        | ok x =>
          obtain ⟨names, c⟩ := x
          rw [hi] at h
          obtain ⟨⟨t, ht⟩, hd⟩ := ih _ _ _ _ h
          obtain ⟨t1, ht1⟩ := appendModImp_extends up modules names c
          have ht2 : r.modules = modules ++ (t1 ++ t) := by
            rw [ht, ht1, List.append_assoc]
          refine ⟨⟨t1 ++ t, ht2⟩, ?_⟩
          have hri : r.modules[i]? = some m := by
            rw [ht2]; exact getElem?_append_of_some _ _ _ _ hm
          rw [hd, drop_of_getElem? _ _ _ hri, List.filterMap_cons, hf]
          simp

/-! ## The resolver returns the first match of every worklist entry (C1) -/

/-- C1, as stated, fails: for the imports `[a.dll]` (case-insensitive) and the
pool `[x/a.dll, y/A.DLL]`, where the file named `a.dll` has the imports
`[A.DLL]` and the file named `A.DLL` has none, the result is `[x/a.dll]` and
the worklist ends as `[a.dll]`: `appendIfNew` takes `A.DLL` for present. -/
theorem listDepsFromDir_case_equal_names :
    unixBase (str "x/a.dll") = str "a.dll" ∧
    unixBase (str "y/A.DLL") = str "A.DLL" ∧
    importsOf fsCase (str "x/a.dll") = .ok ([str "A.DLL"], true) ∧
    importsOf fsCase (str "y/A.DLL") = .ok ([], false) ∧
    listDepsFromDir asciiUpper unixBase fsCase 3 [{ name := str "a.dll", caseless := true }]
        [str "x/a.dll", str "y/A.DLL"] =
      some (.ok { deps := [str "x/a.dll"],
                  modules := [{ name := str "a.dll", caseless := true }] }) :=
  ⟨by rfl, by rfl, by rfl, by rfl, by rfl⟩

/-- C1, amended: when resolution succeeds, `listDepsFromDir` returns exactly
one path per entry of the final worklist that has a matching candidate, in
worklist order, the path being the first pool entry whose base name equals the
entry under the entry's own case policy, and nothing for entries without a
match; the final worklist starts with the initial import list. In particular,
for imports `[A]` and any pool in which the first file matching `A` has the
imports `[B]`, tagged with the policy `cB` of its format, and the first file
matching `B` under `cB` has no imports, with `B` not equal to `A` under `cB`,
the result is `[path(A), path(B)]` and the worklist ends as exactly `[A, B]`;
that is so for the pool of a file named `A` followed by a file named `B`. -/
theorem listDepsFromDir_result (up base : GoString → GoString) (fs : GoString → FileInfo) :
    (∀ (fuel : Nat) (modules : Registry) (files : List GoString) (r : Resolved),
      listDepsFromDir up base fs fuel modules files = some (.ok r) →
      r.deps = r.modules.filterMap (firstMatch up base files) ∧
      ∃ t, r.modules = modules ++ t) ∧
    (∀ (A B pA pB : GoString) (cA cB cB' : Bool) (files : List GoString),
      firstMatch up base files { name := A, caseless := cA } = some pA →
      firstMatch up base files { name := B, caseless := cB } = some pB →
      ¬ sameUnder up cB A B →
      importsOf fs pA = .ok ([B], cB) → importsOf fs pB = .ok ([], cB') →
      ∀ fuel, 3 ≤ fuel →
        listDepsFromDir up base fs fuel [{ name := A, caseless := cA }] files =
          some (.ok { deps := [pA, pB],
                      modules := [{ name := A, caseless := cA },
                                  { name := B, caseless := cB }] })) ∧
    (∀ (A B pA pB : GoString) (cA cB cB' : Bool),
      base pA = A → base pB = B → ¬ sameUnder up cB A B →
      importsOf fs pA = .ok ([B], cB) → importsOf fs pB = .ok ([], cB') →
      ∀ fuel, 3 ≤ fuel →
        listDepsFromDir up base fs fuel [{ name := A, caseless := cA }] [pA, pB] =
          some (.ok { deps := [pA, pB],
                      modules := [{ name := A, caseless := cA },
                                  { name := B, caseless := cB }] })) := by
  have core : ∀ (A B pA pB : GoString) (cA cB cB' : Bool) (files : List GoString),
      firstMatch up base files { name := A, caseless := cA } = some pA →
      firstMatch up base files { name := B, caseless := cB } = some pB →
      ¬ sameUnder up cB A B →
      importsOf fs pA = .ok ([B], cB) → importsOf fs pB = .ok ([], cB') →
      ∀ fuel, 3 ≤ fuel →
        listDepsFromDir up base fs fuel [{ name := A, caseless := cA }] files =
          some (.ok { deps := [pA, pB],
                      modules := [{ name := A, caseless := cA },
                                  { name := B, caseless := cB }] }) := by
    intro A B pA pB cA cB cB' files hfA hfB hAB hiA hiB fuel hfuel
    have hnew : appendIfNew up [{ name := A, caseless := cA }] B cB =
        [{ name := A, caseless := cA }, { name := B, caseless := cB }] := by
      rw [appendIfNew_of_not_mem]
      · rfl
      · rintro ⟨m, hm, hs⟩
        simp only [List.mem_singleton] at hm
        subst hm
        exact hAB hs
    have h3 : listDepsLoop up base fs files 3 [{ name := A, caseless := cA }] 0 [] =
        some (.ok { deps := [pA, pB],
                    modules := [{ name := A, caseless := cA },
                                { name := B, caseless := cB }] }) := by
      rw [listDepsLoop_succ]
      simp only [List.getElem?_cons_zero, hfA, hiA, appendModImp_cons, appendModImp_nil, hnew]
      rw [listDepsLoop_succ]
      simp only [List.getElem?_cons_succ, List.getElem?_cons_zero, zero_add, hfB, hiB,
        appendModImp_nil]
      rw [listDepsLoop_done _ _ _ _ _ _ _ _ (by simp)]
      simp
    exact listDepsLoop_mono up base fs files 3 _ _ _ _ h3 fuel hfuel
  refine ⟨?_, core, ?_⟩
  · intro fuel modules files r h
    obtain ⟨ht, hd⟩ := listDepsLoop_ok_spec up base fs files fuel modules 0 [] r h
    exact ⟨by simpa using hd, ht⟩
  · intro A B pA pB cA cB cB' hA hB hAB hiA hiB fuel hfuel
    have hmAA : matchesMod up base { name := A, caseless := cA } pA := by
      simp only [matchesMod, hA]; exact sameUnder_of_eq up cA A
    have hmBB : matchesMod up base { name := B, caseless := cB } pB := by
      simp only [matchesMod, hB]; exact sameUnder_of_eq up cB B
    have hmBA : ¬ matchesMod up base { name := B, caseless := cB } pA := by
      simp only [matchesMod, hA]; exact hAB
    refine core A B pA pB cA cB cB' [pA, pB] ?_ ?_ hAB hiA hiB fuel hfuel
    · simp [firstMatch, List.find?_cons, hmAA]
    · simp [firstMatch, List.find?_cons, hmBB, hmBA]

/-- C1, amended, at a concrete input: imports `[a]` (case-sensitive), pool
`[d/a, d/A]` of ELF files, where `d/a` needs `A` and `d/A` needs nothing: the
names differ case-sensitively, the result is `[d/a, d/A]` and the worklist
ends as `[a, A]`. -/
theorem listDepsFromDir_result_witness :
    listDepsFromDir asciiUpper unixBase fsLower 3 [{ name := str "a", caseless := false }]
        [str "d/a", str "d/A"] =
      some (.ok { deps := [str "d/a", str "d/A"],
                  modules := [{ name := str "a", caseless := false },
                              { name := str "A", caseless := false }] }) ∧
    [str "d/a", str "d/A"] =
      List.filterMap (firstMatch asciiUpper unixBase [str "d/a", str "d/A"])
        [{ name := str "a", caseless := false }, { name := str "A", caseless := false }] :=
  have h := (listDepsFromDir_result asciiUpper unixBase fsLower).2.2 (str "a") (str "A")
    (str "d/a") (str "d/A") false false false
    (by decide) (by decide) (by decide) (by rfl) (by rfl) 3 (le_refl 3)
  ⟨h, ((listDepsFromDir_result asciiUpper unixBase fsLower).1 3 _ _ _ h).1⟩

/-! ## Termination of the resolver loop (C6) -/

theorem appendIfNew_grown (up : GoString → GoString) (modules ext : Registry)
    (n : GoString) (c : Bool) (S : List GoString) (hn : n ∈ S)
    (hnd : (ext.map (fun e => e.name)).Nodup) (hs : ∀ e ∈ ext, e.name ∈ S) :
    ∃ ext1, appendIfNew up (modules ++ ext) n c = modules ++ ext1 ∧
      (ext1.map (fun e => e.name)).Nodup ∧ ∀ e ∈ ext1, e.name ∈ S := by
  rcases appendIfNew_cases up (modules ++ ext) n c with ⟨_, h⟩ | ⟨hno, h⟩
  · exact ⟨ext, h, hnd, hs⟩
  · refine ⟨ext ++ [{ name := n, caseless := c }], by rw [h, List.append_assoc], ?_, ?_⟩
    · rw [List.map_append, List.nodup_append]
      refine ⟨hnd, by simp, ?_⟩
      intro x hx hx1
      simp only [List.map_cons, List.map_nil, List.mem_singleton] at hx1
      subst hx1
      obtain ⟨e, he, hen⟩ := List.mem_map.1 hx
      apply hno
      refine ⟨e, List.mem_append_right _ he, ?_⟩
      rw [hen]
      exact sameUnder_of_eq up c _
    · intro e he
      rcases List.mem_append.1 he with he | he
      · exact hs e he
      · simp only [List.mem_singleton] at he
        subst he
        exact hn

theorem appendModImp_grown (up : GoString → GoString) (modules : Registry)
    (names : List GoString) (c : Bool) (S : List GoString) (hn : ∀ n ∈ names, n ∈ S) :
    ∀ ext : Registry, (ext.map (fun e => e.name)).Nodup → (∀ e ∈ ext, e.name ∈ S) →
    ∃ ext1, appendModImp up (modules ++ ext) names c = modules ++ ext1 ∧
      (ext1.map (fun e => e.name)).Nodup ∧ ∀ e ∈ ext1, e.name ∈ S := by
  induction names with
  | nil => intro ext hnd hs; exact ⟨ext, rfl, hnd, hs⟩
  | cons n names ih =>
    intro ext hnd hs
    obtain ⟨ext1, h1, hnd1, hs1⟩ :=
      appendIfNew_grown up modules ext n c S (hn n (List.mem_cons_self _ _)) hnd hs
    obtain ⟨ext2, h2, hnd2, hs2⟩ :=
      ih (fun x hx => hn x (List.mem_cons_of_mem _ hx)) ext1 hnd1 hs1
    exact ⟨ext2, by rw [appendModImp_cons, h1, h2], hnd2, hs2⟩

theorem grown_length_le (ext : Registry) (S : List GoString)
    (hnd : (ext.map (fun e => e.name)).Nodup) (hs : ∀ e ∈ ext, e.name ∈ S) :
    ext.length ≤ S.dedup.length := by
  have hsub : ext.map (fun e => e.name) ⊆ S.dedup := by
    intro x hx
    obtain ⟨e, he, rfl⟩ := List.mem_map.1 hx
    exact List.mem_dedup.2 (hs e he)
  have := (hnd.subperm hsub).length_le
  simpa using this

theorem importsOf_mem_poolNames (fs : GoString → FileInfo) (files : List GoString)
    (path : GoString) (names : List GoString) (c : Bool) (hp : path ∈ files)
    (hi : importsOf fs path = .ok (names, c)) : ∀ n ∈ names, n ∈ poolNames fs files := by
  intro n hn
  unfold poolNames
  rw [List.mem_flatMap]
  exact ⟨path, hp, by rw [hi]; exact hn⟩

theorem firstMatch_mem (up base : GoString → GoString) (files : List GoString)
    (m : ModuleName) (path : GoString) (h : firstMatch up base files m = some path) :
    path ∈ files :=
  List.mem_of_find?_eq_some h

theorem listDepsLoop_grown (up base : GoString → GoString) (fs : GoString → FileInfo)
    (files : List GoString) (modules : Registry) (fuel : Nat) :
    ∀ (ext : Registry) (i : Nat) (deps : List GoString) (r : Resolved),
      (ext.map (fun e => e.name)).Nodup → (∀ e ∈ ext, e.name ∈ poolNames fs files) →
      listDepsLoop up base fs files fuel (modules ++ ext) i deps = some (.ok r) →
      ∃ ext1, r.modules = modules ++ ext1 ∧ (ext1.map (fun e => e.name)).Nodup ∧
        ∀ e ∈ ext1, e.name ∈ poolNames fs files := by
  induction fuel with
  | zero => intro ext i deps r _ _ h; simp [listDepsLoop] at h
  | succ fuel ih =>
    intro ext i deps r hnd hs h
    rw [listDepsLoop_succ] at h
    cases hm : (modules ++ ext)[i]? with
    | none =>
      rw [hm] at h
      simp only [Option.some.injEq, Except.ok.injEq] at h
      subst h
      exact ⟨ext, rfl, hnd, hs⟩
    | some m =>
      rw [hm] at h
      simp only at h
      cases hf : firstMatch up base files m with
      | none => rw [hf] at h; exact ih ext _ _ _ hnd hs h
      | some path =>
        rw [hf] at h
        simp only at h
        cases hi : importsOf fs path with
        | error e => rw [hi] at h; simp at h
        | ok x =>
          obtain ⟨names, c⟩ := x
          rw [hi] at h
          simp only at h
          obtain ⟨ext1, h1, hnd1, hs1⟩ := appendModImp_grown up modules names c
            (poolNames fs files)
            (importsOf_mem_poolNames fs files path names c (firstMatch_mem _ _ _ _ _ hf) hi)
            ext hnd hs
          rw [h1] at h
          exact ih ext1 _ _ _ hnd1 hs1 h

theorem listDepsLoop_terminates (up base : GoString → GoString) (fs : GoString → FileInfo)
    (files : List GoString) (modules : Registry) (fuel : Nat) :
    ∀ (ext : Registry) (i : Nat) (deps : List GoString),
      (ext.map (fun e => e.name)).Nodup → (∀ e ∈ ext, e.name ∈ poolNames fs files) →
      i ≤ (modules ++ ext).length →
      modules.length + (poolNames fs files).dedup.length + 1 ≤ fuel + i →
      ∃ res, listDepsLoop up base fs files fuel (modules ++ ext) i deps = some res := by
  induction fuel with
  | zero =>
    intro ext i deps hnd hs hi hfuel
    have := grown_length_le ext _ hnd hs
    simp only [List.length_append] at hi
    omega
  | succ fuel ih =>
    intro ext i deps hnd hs hi hfuel
    rw [listDepsLoop_succ]
    cases hm : (modules ++ ext)[i]? with
    | none => exact ⟨_, rfl⟩
    | some m =>
      have hlt : i < (modules ++ ext).length := by
        rcases List.getElem?_eq_some.1 hm with ⟨h, _⟩
        exact h
      simp only
      cases hf : firstMatch up base files m with
      | none => exact ih ext (i + 1) deps hnd hs hlt (by omega)
      | some path =>
        simp only
        cases hi1 : importsOf fs path with
        | error e => exact ⟨_, rfl⟩
        | ok x =>
          obtain ⟨names, c⟩ := x
          simp only
          obtain ⟨ext1, h1, hnd1, hs1⟩ := appendModImp_grown up modules names c
            (poolNames fs files)
            (importsOf_mem_poolNames fs files path names c (firstMatch_mem _ _ _ _ _ hf) hi1)
            ext hnd hs
          rw [h1]
          refine ih ext1 (i + 1) _ hnd1 hs1 ?_ (by omega)
          obtain ⟨t, ht⟩ := appendModImp_extends up (modules ++ ext) names c
          have hlen := congrArg List.length (h1.symm.trans ht)
          simp only [List.length_append] at hlen hlt ⊢
          omega

/-- C6: the resolver loop of `listDepsFromDir` terminates for every initial import
list, pool and file system, also when files import each other
cyclically: it reaches a result within `len(modules) + N + 1` iterations,
`N` being the number of distinct names imported by pool files, and the final
worklist has at most `len(modules) + N` entries. -/
theorem listDepsFromDir_terminates (up base : GoString → GoString)
    (fs : GoString → FileInfo) (modules : Registry) (files : List GoString) :
    (∀ fuel, modules.length + (poolNames fs files).dedup.length + 1 ≤ fuel →
      ∃ res, listDepsFromDir up base fs fuel modules files = some res) ∧
    (∀ (fuel : Nat) (r : Resolved),
      listDepsFromDir up base fs fuel modules files = some (.ok r) →
      r.modules.length ≤ modules.length + (poolNames fs files).dedup.length) := by
  constructor
  · intro fuel hfuel
    have := listDepsLoop_terminates up base fs files modules fuel [] 0 []
      (by simp) (by simp) (by simp) (by omega)
    simpa [listDepsFromDir] using this
  · intro fuel r h
    have h1 : listDepsLoop up base fs files fuel (modules ++ []) 0 [] = some (.ok r) := by
      simpa [listDepsFromDir] using h
    obtain ⟨ext1, he, hnd, hs⟩ :=
      listDepsLoop_grown up base fs files modules fuel [] 0 [] r (by simp) (by simp) h1
    have := grown_length_le ext1 _ hnd hs
    rw [he, List.length_append]
    omega

/-- C6 at a concrete input: the files `d/A` and `d/B` need each other; from
imports `[A]` the loop ends with the worklist `[A, B]`. -/
theorem listDepsFromDir_terminates_witness :
    (∃ res, listDepsFromDir asciiUpper unixBase fsCycle 4
        [{ name := str "A", caseless := false }] [str "d/A", str "d/B"] = some res) ∧
    listDepsFromDir asciiUpper unixBase fsCycle 4
        [{ name := str "A", caseless := false }] [str "d/A", str "d/B"] =
      some (.ok { deps := [str "d/A", str "d/B"],
                  modules := [{ name := str "A", caseless := false },
                              { name := str "B", caseless := false }] }) ∧
    2 ≤ 1 + (poolNames fsCycle [str "d/A", str "d/B"]).dedup.length :=
  ⟨(listDepsFromDir_terminates asciiUpper unixBase fsCycle
      [{ name := str "A", caseless := false }] [str "d/A", str "d/B"]).1 4 (by decide),
   by rfl,
   (listDepsFromDir_terminates asciiUpper unixBase fsCycle
      [{ name := str "A", caseless := false }] [str "d/A", str "d/B"]).2 4
      { deps := [str "d/A", str "d/B"],
        modules := [{ name := str "A", caseless := false },
                    { name := str "B", caseless := false }] } (by rfl)⟩

/-! ## Closure of the resolved set (C2) -/

theorem listDepsLoop_covers (up base : GoString → GoString) (fs : GoString → FileInfo)
    (files : List GoString) (fuel : Nat) :
    ∀ (modules : Registry) (i : Nat) (deps : List GoString) (r : Resolved),
      listDepsLoop up base fs files fuel modules i deps = some (.ok r) →
      ∀ path ∈ r.deps, path ∈ deps ∨
        ∀ (names : List GoString) (c : Bool), importsOf fs path = .ok (names, c) →
          ∀ n ∈ names, ∃ m ∈ r.modules, sameUnder up c m.name n := by
  induction fuel with
  | zero => intro modules i deps r h; simp [listDepsLoop] at h
  | succ fuel ih =>
    intro modules i deps r h path hp
    rw [listDepsLoop_succ] at h
    cases hm : modules[i]? with
    | none =>
      rw [hm] at h
      simp only [Option.some.injEq, Except.ok.injEq] at h
      subst h
      exact Or.inl hp
    | some m =>
      rw [hm] at h
      simp only at h
      cases hf : firstMatch up base files m with
      | none => rw [hf] at h; exact ih _ _ _ _ h path hp
      | some path0 =>
        rw [hf] at h
        simp only at h
        cases hi : importsOf fs path0 with
        | error e => rw [hi] at h; simp at h
        | ok x =>
          obtain ⟨names0, c0⟩ := x
          rw [hi] at h
          simp only at h
          rcases ih _ _ _ _ h path hp with hin | hcov
          · rcases List.mem_append.1 hin with hin | hin
            · exact Or.inl hin
            · right
              simp only [List.mem_singleton] at hin
              subst hin
              intro names c hnc n hn
              rw [hi] at hnc
              simp only [Except.ok.injEq, Prod.mk.injEq] at hnc
              obtain ⟨rfl, rfl⟩ := hnc
              obtain ⟨m1, hm1, hs⟩ := appendModImp_covers up modules names0 c0 n hn
              obtain ⟨⟨t, ht⟩, _⟩ := listDepsLoop_ok_spec up base fs files fuel _ _ _ _ h
              exact ⟨m1, by rw [ht]; exact List.mem_append_left _ hm1, hs⟩
          · exact Or.inr hcov

theorem firstMatch_congr (up base : GoString → GoString) (files : List GoString)
    (m : ModuleName) (n : GoString) (c : Bool) (hc : m.caseless = c)
    (hs : sameUnder up c m.name n) :
    firstMatch up base files m = firstMatch up base files { name := n, caseless := c } := by
  unfold firstMatch
  congr 1
  funext p
  simp only [matchesMod, hc]
  cases c
  · simp only [sameUnder] at hs ⊢; simp only [hs]
  · simp only [sameUnder] at hs ⊢; simp only [hs]

/-- C2, as stated, fails: from imports `a.dll` (case-insensitive) and `x`
(case-sensitive) over the pool `[d/A.DLL, d/a.dll, d/x]`, the result is
`[d/A.DLL, d/x]`; the file `d/x` in it imports `a.dll` case-sensitively, the
first candidate matching that name is `d/a.dll`, and it is not in the result. -/
theorem deps_closed_fails :
    ∃ r, listDepsFromDir asciiUpper unixBase fsMixed 3
        [{ name := str "a.dll", caseless := true }, { name := str "x", caseless := false }]
        [str "d/A.DLL", str "d/a.dll", str "d/x"] = some (.ok r) ∧
      r.deps = [str "d/A.DLL", str "d/x"] ∧
      ¬ DepsClosed asciiUpper unixBase fsMixed [str "d/A.DLL", str "d/a.dll", str "d/x"] r :=
  ⟨{ deps := [str "d/A.DLL", str "d/x"],
     modules := [{ name := str "a.dll", caseless := true },
                 { name := str "x", caseless := false }] },
   by rfl, rfl,
   fun h => absurd
     (h (str "d/x") (by decide) [str "a.dll"] false (by rfl) (str "a.dll") (by decide)
       (str "d/a.dll") (by rfl))
     (by decide)⟩

/-- C2, amended: when `listDepsFromDir` succeeds, for every path in the result
and every module name that the file at that path imports, the final worklist
holds an entry that compares equal to the name under the policy of the file's
format, and the first candidate matching that entry under the entry's own
policy, if there is one, is in the result; so when that entry carries the
policy of the file's format, the first candidate matching the name is in the
result. -/
theorem deps_closed_through_worklist (up base : GoString → GoString)
    (fs : GoString → FileInfo) (fuel : Nat) (modules : Registry) (files : List GoString)
    (r : Resolved) (h : listDepsFromDir up base fs fuel modules files = some (.ok r)) :
    ∀ path ∈ r.deps, ∀ (names : List GoString) (c : Bool),
      importsOf fs path = .ok (names, c) → ∀ n ∈ names,
        ∃ m ∈ r.modules, sameUnder up c m.name n ∧
          (∀ q, firstMatch up base files m = some q → q ∈ r.deps) ∧
          (m.caseless = c → ∀ q,
            firstMatch up base files { name := n, caseless := c } = some q → q ∈ r.deps) := by
  intro path hp names c hi n hn
  obtain ⟨_, hd⟩ := listDepsLoop_ok_spec up base fs files fuel modules 0 [] r h
  simp only [List.drop_zero, List.nil_append] at hd
  rcases listDepsLoop_covers up base fs files fuel modules 0 [] r h path hp with hin | hcov
  · cases hin
  · obtain ⟨m, hm, hs⟩ := hcov names c hi n hn
    have hq : ∀ q, firstMatch up base files m = some q → q ∈ r.deps := by
      intro q hq
      rw [hd, List.mem_filterMap]
      exact ⟨m, hm, hq⟩
    refine ⟨m, hm, hs, hq, ?_⟩
    intro hc q hq1
    rw [← firstMatch_congr up base files m n c hc hs] at hq1
    exact hq q hq1

/-- C2, amended, at a concrete input: the run of `deps_closed_fails`; the import
`a.dll` of `d/x` is represented by the case-insensitive worklist entry
`a.dll`, whose first match `d/A.DLL` is in the result. -/
theorem deps_closed_through_worklist_witness :
    ∃ m ∈ [ModuleName.mk (str "a.dll") true, ModuleName.mk (str "x") false],
      sameUnder asciiUpper false m.name (str "a.dll") ∧
      (∀ q, firstMatch asciiUpper unixBase [str "d/A.DLL", str "d/a.dll", str "d/x"] m = some q →
        q ∈ [str "d/A.DLL", str "d/x"]) ∧
      (m.caseless = false → ∀ q,
        firstMatch asciiUpper unixBase [str "d/A.DLL", str "d/a.dll", str "d/x"]
          { name := str "a.dll", caseless := false } = some q →
        q ∈ [str "d/A.DLL", str "d/x"]) :=
  deps_closed_through_worklist asciiUpper unixBase fsMixed 3
    [{ name := str "a.dll", caseless := true }, { name := str "x", caseless := false }]
    [str "d/A.DLL", str "d/a.dll", str "d/x"]
    { deps := [str "d/A.DLL", str "d/x"],
      modules := [{ name := str "a.dll", caseless := true },
                  { name := str "x", caseless := false }] }
    (by rfl) (str "d/x") (by decide) [str "a.dll"] false (by rfl) (str "a.dll") (by decide)

/-! ## Failure of the resolver (C8) -/

theorem appendImports_error_iff (up : GoString → GoString) (fs : GoString → FileInfo)
    (imp : Registry) (path : GoString) (e : Err) :
    appendImports up fs imp path = .error e ↔ importsOf fs path = .error e := by
  rw [appendImports_eq]
  cases importsOf fs path with
  | error e1 => simp
  | ok x => simp

theorem appendImports_ok_iff (up : GoString → GoString) (fs : GoString → FileInfo)
    (imp imp1 : Registry) (path : GoString) :
    appendImports up fs imp path = .ok imp1 ↔
      ∃ names c, importsOf fs path = .ok (names, c) ∧ imp1 = appendModImp up imp names c := by
  rw [appendImports_eq]
  cases importsOf fs path with
  | error e1 => simp
  | ok x =>
    obtain ⟨names, c⟩ := x
    simp only [Except.ok.injEq, Prod.mk.injEq]
    constructor
    · intro h; exact ⟨names, c, ⟨rfl, rfl⟩, h.symm⟩
    · rintro ⟨n1, c1, ⟨rfl, rfl⟩, h⟩; exact h.symm

theorem listDepsLoop_error_processes (up base : GoString → GoString)
    (fs : GoString → FileInfo) (files : List GoString) (fuel : Nat) :
    ∀ (modules : Registry) (i : Nat) (deps : List GoString) (e : Err),
      listDepsLoop up base fs files fuel modules i deps = some (.error e) →
      ∃ m path, Processes up base fs files modules i m ∧
        firstMatch up base files m = some path ∧ importsOf fs path = .error e := by
  induction fuel with
  | zero => intro modules i deps e h; simp [listDepsLoop] at h
  | succ fuel ih =>
    intro modules i deps e h
    rw [listDepsLoop_succ] at h
    cases hm : modules[i]? with
    | none => rw [hm] at h; simp at h
    | some m0 =>
      rw [hm] at h
      simp only at h
      cases hf : firstMatch up base files m0 with
      | none =>
        rw [hf] at h
        obtain ⟨m, path, hp, hfm, hie⟩ := ih _ _ _ _ h
        exact ⟨m, path, Processes.skip modules i m0 m hm hf hp, hfm, hie⟩
      | some path0 =>
        rw [hf] at h
        simp only at h
        cases hi : importsOf fs path0 with
        | error e0 =>
          rw [hi] at h
          simp only [Option.some.injEq, Except.error.injEq] at h
          subst h
          exact ⟨m0, path0, Processes.here modules i m0 hm, hf, hi⟩
        | ok x =>
          obtain ⟨names, c⟩ := x
          rw [hi] at h
          simp only at h
          obtain ⟨m, path, hp, hfm, hie⟩ := ih _ _ _ _ h
          refine ⟨m, path, Processes.step modules _ i m0 m path0 hm hf ?_ hp, hfm, hie⟩
          exact (appendImports_ok_iff up fs _ _ _).2 ⟨names, c, hi, rfl⟩

theorem processes_error (up base : GoString → GoString) (fs : GoString → FileInfo)
    (files : List GoString) (modules : Registry) (i : Nat) (m : ModuleName)
    (hp : Processes up base fs files modules i m) (path : GoString) (e : Err)
    (hf : firstMatch up base files m = some path) (hi : importsOf fs path = .error e) :
    ∀ deps, ∃ fuel, listDepsLoop up base fs files fuel modules i deps = some (.error e) := by
  induction hp with
  | here modules i m hm =>
    intro deps
    refine ⟨1, ?_⟩
    rw [listDepsLoop_succ, hm]
    simp only [hf, hi]
  | skip modules i m0 m hm hf0 _ ih =>
    intro deps
    obtain ⟨fuel, h⟩ := ih hf deps
    refine ⟨fuel + 1, ?_⟩
    rw [listDepsLoop_succ, hm]
    simp only [hf0]
    exact h
  | step modules modules1 i m0 m path0 hm hf0 ha _ ih =>
    intro deps
    obtain ⟨names, c, hi0, rfl⟩ := (appendImports_ok_iff up fs _ _ _).1 ha
    obtain ⟨fuel, h⟩ := ih hf (deps ++ [path0])
    refine ⟨fuel + 1, ?_⟩
    rw [listDepsLoop_succ, hm]
    simp only [hf0, hi0]
    exact h

theorem peImports_error (f : PEFile) (e : Err) (h : peImports f = .error e) :
    e = Err.runtime := by
  unfold peImports at h
  cases hoh : f.OptionalHeader with
  | none => rw [hoh] at h; simp at h
  | some oh =>
    rw [hoh] at h
    simp only at h
    split at h
    · simp at h
    · cases hds : findSection (oh.DataDirectory IMAGE_DIRECTORY_ENTRY_IMPORT).VirtualAddress
          f.Sections with
      | none => rw [hds] at h; simp at h
      | some ds =>
        rw [hds] at h
        simp only at h
        cases hdata : ds.Data with
        | none => rw [hdata] at h; simp at h
        | some data =>
          rw [hdata] at h
          simp only at h
          split at h
          · simp only [Except.error.injEq] at h; exact h.symm
          · simp at h

theorem appendImportsPE_error (up : GoString → GoString) (fs : GoString → FileInfo)
    (imp : Registry) (path : GoString) (e : Err)
    (h : appendImportsPE up fs imp path = .error e) : e = Err.runtime := by
  rw [appendImportsPE_eq] at h
  cases hopen : (fs path).peOpen with
  | none => rw [hopen] at h; simp at h
  | some f =>
    rw [hopen] at h
    simp only at h
    cases hpi : peImports f with
    | error e1 =>
      rw [hpi] at h
      simp only [Except.error.injEq] at h
      subst h
      exact peImports_error f e1 hpi
    | ok o => rw [hpi] at h; cases o <;> simp at h

theorem appendImportsELF_false (up : GoString → GoString) (fs : GoString → FileInfo)
    (imp imp1 : Registry) (path : GoString)
    (h : appendImportsELF up fs imp path = (false, imp1)) : imp1 = imp := by
  unfold appendImportsELF at h
  cases h1 : (fs path).elfOpen with
  | none => rw [h1] at h; simp only [Prod.mk.injEq] at h; exact h.2.symm
  | some f =>
    rw [h1] at h
    simp only at h
    cases h2 : f.ImportedLibraries with
    | none => rw [h2] at h; simp only [Prod.mk.injEq] at h; exact h.2.symm
    | some names => rw [h2] at h; simp at h

theorem appendImports_message_iff (up : GoString → GoString) (fs : GoString → FileInfo)
    (imp : Registry) (path : GoString) (e : Err) (he : e.isMessage = true) :
    appendImports up fs imp path = .error e ↔
      (isFile fs path = false ∧ e = Err.notAFile path) ∨
      (isFile fs path = true ∧ (appendImportsELF up fs imp path).1 = false ∧
        (∃ imp1, appendImportsPE up fs imp path = .ok (false, imp1)) ∧
        e = Err.unknownModuleType path) := by
  unfold appendImports
  cases isFile fs path with
  | false =>
    simp only [Bool.not_false, if_true, Except.error.injEq, true_and, Bool.false_eq_true,
      false_and, or_false]
    exact eq_comm
  | true =>
    simp only [Bool.not_true, Bool.false_eq_true, if_false, false_and, true_and, false_or]
    rcases helf : appendImportsELF up fs imp path with ⟨b, imp1⟩
    cases b with
    | true => simp
    | false =>
      have := appendImportsELF_false up fs imp imp1 path helf
      subst this
      simp only [true_and]
      cases hpe : appendImportsPE up fs imp1 path with
      | error e1 =>
        have := appendImportsPE_error up fs imp1 path e1 hpe
        subst this
        simp only [Except.error.injEq, reduceCtorEq, exists_false, false_and, or_self,
          iff_false]
        intro h
        subst h
        cases he
      | ok x =>
        obtain ⟨b, imp2⟩ := x
        cases b with
        | true => simp
        | false =>
          simp only [Except.error.injEq, Except.ok.injEq, Prod.mk.injEq, true_and,
            exists_eq', Bool.true_eq_false, false_and, false_or]
          exact eq_comm

theorem listDepsLoop_unmatched (up base : GoString → GoString) (fs : GoString → FileInfo)
    (files : List GoString) (modules : Registry)
    (hall : ∀ m ∈ modules, firstMatch up base files m = none) (k : Nat) :
    ∀ (i : Nat) (deps : List GoString), modules.length ≤ i + k →
      listDepsLoop up base fs files (k + 1) modules i deps =
        some (.ok { deps := deps, modules := modules }) := by
  induction k with
  | zero => intro i deps h; exact listDepsLoop_done _ _ _ _ _ _ _ _ (by omega)
  | succ k ih =>
    intro i deps h
    rw [listDepsLoop_succ]
    cases hm : modules[i]? with
    | none => rfl
    | some m =>
      simp only [hall m (List.getElem?_mem hm)]
      exact ih (i + 1) deps (by omega)

theorem peImports_none_iff (f : PEFile) :
    peImports f = .ok none ↔
      f.OptionalHeader = none ∨
      ∃ (oh : OptionalHeader) (ds : Section), f.OptionalHeader = some oh ∧
        2 ≤ oh.NumberOfRvaAndSizes ∧
        findSection (oh.DataDirectory IMAGE_DIRECTORY_ENTRY_IMPORT).VirtualAddress
          f.Sections = some ds ∧
        ds.Data = none := by
  have hone : IMAGE_DIRECTORY_ENTRY_IMPORT.val = 1 := rfl
  unfold peImports
  cases hoh : f.OptionalHeader with
  | none => simp
  | some oh =>
    simp only [reduceCtorEq, false_or, Option.some.injEq]
    by_cases hdd : oh.NumberOfRvaAndSizes < IMAGE_DIRECTORY_ENTRY_IMPORT.val + 1
    · rw [if_pos hdd]
      constructor
      · intro h; simp at h
      · rintro ⟨oh1, ds, rfl, h2, _⟩; omega
    · rw [if_neg hdd]
      cases hds : findSection (oh.DataDirectory IMAGE_DIRECTORY_ENTRY_IMPORT).VirtualAddress
          f.Sections with
      | none =>
        constructor
        · intro h; simp at h
        · rintro ⟨oh1, ds, rfl, _, h3, _⟩
          rw [hds] at h3; cases h3
      | some ds =>
        simp only
        cases hdata : ds.Data with
        | none =>
          simp only [true_iff]
          exact ⟨oh, ds, rfl, by omega, hds, hdata⟩
        | some data =>
          simp only
          constructor
          · intro h
            split at h <;> simp at h
          · rintro ⟨oh1, ds1, rfl, _, h3, h4⟩
            rw [hds] at h3
            simp only [Option.some.injEq] at h3
            subst h3
            rw [hdata] at h4; cases h4

theorem appendImportsPE_false_iff (up : GoString → GoString) (fs : GoString → FileInfo)
    (imp : Registry) (path : GoString) :
    (∃ imp1, appendImportsPE up fs imp path = .ok (false, imp1)) ↔
      (fs path).peOpen = none ∨
      ∃ f, (fs path).peOpen = some f ∧
        (f.OptionalHeader = none ∨
          ∃ (oh : OptionalHeader) (ds : Section), f.OptionalHeader = some oh ∧
            2 ≤ oh.NumberOfRvaAndSizes ∧
            findSection (oh.DataDirectory IMAGE_DIRECTORY_ENTRY_IMPORT).VirtualAddress
              f.Sections = some ds ∧
            ds.Data = none) := by
  rw [appendImportsPE_eq]
  cases hopen : (fs path).peOpen with
  | none => simp
  | some f =>
    simp only [reduceCtorEq, false_or, Option.some.injEq, exists_eq_left']
    rw [← peImports_none_iff]
    cases hpi : peImports f with
    | error e => simp
    | ok o => cases o <;> simp

theorem appendImportsELF_false_iff (up : GoString → GoString) (fs : GoString → FileInfo)
    (imp : Registry) (path : GoString) :
    (appendImportsELF up fs imp path).1 = false ↔
      (fs path).elfOpen = none ∨
      ∃ f, (fs path).elfOpen = some f ∧ f.ImportedLibraries = none := by
  unfold appendImportsELF
  cases hopen : (fs path).elfOpen with
  | none => simp
  | some f =>
    simp only [reduceCtorEq, false_or, Option.some.injEq, exists_eq_left']
    cases hl : f.ImportedLibraries <;> simp

/-- C8, as stated, fails. The pool file `d/obj.o` is a regular file that
opens as a PE, yet the run that matches it fails with `Unknown module type`
(it has no optional header and `appendImportsPE` returns false); and the pool
file `d/short.exe` is a regular file that opens as a PE, and the run that
matches it stops with the runtime error of the slice expression, which is not
a panic with a message. -/
theorem listDepsFromDir_fails_on_pe_files :
    ((fsPE (str "d/obj.o")).isRegular = true ∧
      (fsPE (str "d/obj.o")).peOpen.isSome = true ∧
      listDepsFromDir asciiUpper unixBase fsPE 1 [{ name := str "obj.o", caseless := false }]
          [str "d/obj.o"] =
        some (.error (Err.unknownModuleType (str "d/obj.o")))) ∧
    ((fsPE (str "d/short.exe")).isRegular = true ∧
      (fsPE (str "d/short.exe")).peOpen.isSome = true ∧
      listDepsFromDir asciiUpper unixBase fsPE 1
          [{ name := str "short.exe", caseless := false }] [str "d/short.exe"] =
        some (.error Err.runtime) ∧
      Err.isMessage Err.runtime = false) :=
  ⟨⟨by rfl, by rfl, by rfl⟩, ⟨by rfl, by rfl, by rfl, by rfl⟩⟩

/-- C8, amended: `listDepsFromDir` fails with an error message `e` if and only
if some worklist entry it processes matches a pool file on which
`appendImports` panics with `e`; that happens exactly when the file is not a
regular file, or both `appendImportsELF` and `appendImportsPE` return false
for it: it does not open as ELF or its imported libraries cannot be read, and
it does not open as PE, or opens as PE without an optional header, or with an import
directory in a section whose data cannot be read. A run that fails
returns no dependency list; and imports that have no matching candidate cause
no failure: a run in which no import has a match ends with success and no
path. -/
theorem listDepsFromDir_fails_iff (up base : GoString → GoString)
    (fs : GoString → FileInfo) (modules : Registry) (files : List GoString) :
    (∀ e : Err, e.isMessage = true →
      ((∃ fuel, listDepsFromDir up base fs fuel modules files = some (.error e)) ↔
        ∃ m path, Processes up base fs files modules 0 m ∧
          firstMatch up base files m = some path ∧
          ∀ imp, appendImports up fs imp path = .error e)) ∧
    (∀ (path : GoString) (imp : Registry) (e : Err), e.isMessage = true →
      (appendImports up fs imp path = .error e ↔
        (isFile fs path = false ∧ e = Err.notAFile path) ∨
        (isFile fs path = true ∧ (appendImportsELF up fs imp path).1 = false ∧
          (∃ imp1, appendImportsPE up fs imp path = .ok (false, imp1)) ∧
          e = Err.unknownModuleType path))) ∧
    (∀ (path : GoString) (imp : Registry),
      ((appendImportsELF up fs imp path).1 = false ↔
        (fs path).elfOpen = none ∨
        ∃ f, (fs path).elfOpen = some f ∧ f.ImportedLibraries = none) ∧
      ((∃ imp1, appendImportsPE up fs imp path = .ok (false, imp1)) ↔
        (fs path).peOpen = none ∨
        ∃ f, (fs path).peOpen = some f ∧
          (f.OptionalHeader = none ∨
            ∃ (oh : OptionalHeader) (ds : Section), f.OptionalHeader = some oh ∧
              2 ≤ oh.NumberOfRvaAndSizes ∧
              findSection (oh.DataDirectory IMAGE_DIRECTORY_ENTRY_IMPORT).VirtualAddress
                f.Sections = some ds ∧
              ds.Data = none))) ∧
    (∀ (fuel1 fuel2 : Nat) (e : Err) (r : Resolved),
      listDepsFromDir up base fs fuel1 modules files = some (.error e) →
      listDepsFromDir up base fs fuel2 modules files ≠ some (.ok r)) ∧
    ((∀ m ∈ modules, firstMatch up base files m = none) →
      ∀ fuel, modules.length + 1 ≤ fuel →
        listDepsFromDir up base fs fuel modules files =
          some (.ok { deps := [], modules := modules })) := by
  refine ⟨?_, ?_, ?_, ?_, ?_⟩
  · intro e _
    constructor
    · rintro ⟨fuel, h⟩
      obtain ⟨m, path, hp, hf, hi⟩ :=
        listDepsLoop_error_processes up base fs files fuel modules 0 [] e h
      exact ⟨m, path, hp, hf, fun imp => (appendImports_error_iff up fs imp path e).2 hi⟩
    · rintro ⟨m, path, hp, hf, hi⟩
      exact processes_error up base fs files modules 0 m hp path e hf
        ((appendImports_error_iff up fs [] path e).1 (hi [])) []
  · intro path imp e he
    exact appendImports_message_iff up fs imp path e he
  · intro path imp
    exact ⟨appendImportsELF_false_iff up fs imp path, appendImportsPE_false_iff up fs imp path⟩
  · intro fuel1 fuel2 e r h1 h2
    have := listDepsLoop_unique up base fs files fuel1 fuel2 modules 0 [] _ _ h1 h2
    cases this
  · intro hall fuel hfuel
    have := listDepsLoop_unmatched up base fs files modules hall modules.length 0 []
      (by omega)
    exact listDepsLoop_mono up base fs files _ _ _ _ _ this fuel hfuel

/-- C8, amended, at concrete inputs: the import `bad` matches the pool file
`d/bad`, which is regular but neither ELF nor PE, and the run fails with
`Unknown module type`; the import `other` matches nothing and the run
succeeds without a path. -/
theorem listDepsFromDir_fails_iff_witness :
    (∃ fuel, listDepsFromDir asciiUpper unixBase fsBad fuel
        [{ name := str "bad", caseless := false }] [str "d/bad"] =
      some (.error (Err.unknownModuleType (str "d/bad")))) ∧
    (appendImports asciiUpper fsBad [] (str "d/bad") =
      .error (Err.unknownModuleType (str "d/bad"))) ∧
    listDepsFromDir asciiUpper unixBase fsBad 2
        [{ name := str "other", caseless := false }] [str "d/bad"] =
      some (.ok { deps := [], modules := [{ name := str "other", caseless := false }] }) :=
  ⟨((listDepsFromDir_fails_iff asciiUpper unixBase fsBad
      [{ name := str "bad", caseless := false }] [str "d/bad"]).1
        (Err.unknownModuleType (str "d/bad")) rfl).2
      ⟨{ name := str "bad", caseless := false }, str "d/bad",
        Processes.here _ 0 _ (by rfl), by rfl,
        fun imp => (appendImports_error_iff asciiUpper fsBad imp _ _).2 (by rfl)⟩,
   ((listDepsFromDir_fails_iff asciiUpper unixBase fsBad [] []).2.1
      (str "d/bad") [] (Err.unknownModuleType (str "d/bad")) rfl).2
      (Or.inr ⟨by rfl, by rfl, ⟨[], by rfl⟩, rfl⟩),
   (listDepsFromDir_fails_iff asciiUpper unixBase fsBad
      [{ name := str "other", caseless := false }] [str "d/bad"]).2.2.2.2
      (by decide) 2 (le_refl 2)⟩

/-! ## Import extraction through the registry (C9, C10) -/

theorem sameUnder_symm (up : GoString → GoString) (c : Bool) (x y : GoString)
    (h : sameUnder up c x y) : sameUnder up c y x := by
  cases c <;> exact Eq.symm h

theorem sameUnder_trans (up : GoString → GoString) (c : Bool) (x y z : GoString)
    (h1 : sameUnder up c x y) (h2 : sameUnder up c y z) : sameUnder up c x z := by
  cases c <;> exact Eq.trans h1 h2

theorem appendModImp_eq_keepNew (up : GoString → GoString) (c : Bool)
    (names : List GoString) :
    ∀ (r : Registry) (earlier : List GoString),
      (∀ n, (∃ m ∈ r, sameUnder up c m.name n) ↔ ∃ x ∈ earlier, sameUnder up c x n) →
      appendModImp up r names c =
        r ++ (keepNew up c earlier names).map (fun n => { name := n, caseless := c }) := by
  induction names with
  | nil => intro r earlier _; simp [appendModImp, keepNew]
  | cons n rest ih =>
    intro r earlier hinv
    rw [appendModImp_cons, keepNew]
    by_cases hx : ∃ x ∈ earlier, sameUnder up c x n
    · rw [if_pos hx, appendIfNew_of_mem up r n c ((hinv n).2 hx)]
      apply ih
      intro k
      rw [hinv k]
      constructor
      · rintro ⟨x, hx1, hx2⟩
        exact ⟨x, List.mem_append_left _ hx1, hx2⟩
      · rintro ⟨x, hx1, hx2⟩
        rcases List.mem_append.1 hx1 with hx1 | hx1
        · exact ⟨x, hx1, hx2⟩
        · simp only [List.mem_singleton] at hx1
          subst hx1
          obtain ⟨y, hy1, hy2⟩ := hx
          exact ⟨y, hy1, sameUnder_trans up c _ _ _ hy2 hx2⟩
    · rw [if_neg hx, appendIfNew_of_not_mem up r n c (fun h => hx ((hinv n).1 h))]
      rw [ih (r ++ [ModuleName.mk n c]) (earlier ++ [n])]
      · simp
      · intro k
        constructor
        · rintro ⟨m, hm1, hm2⟩
          rcases List.mem_append.1 hm1 with hm1 | hm1
          · obtain ⟨x, hx1, hx2⟩ := (hinv k).1 ⟨m, hm1, hm2⟩
            exact ⟨x, List.mem_append_left _ hx1, hx2⟩
          · simp only [List.mem_singleton] at hm1
            subst hm1
            exact ⟨n, by simp, hm2⟩
        · rintro ⟨x, hx1, hx2⟩
          rcases List.mem_append.1 hx1 with hx1 | hx1
          · obtain ⟨m, hm1, hm2⟩ := (hinv k).2 ⟨x, hx1, hx2⟩
            exact ⟨m, List.mem_append_left _ hm1, hm2⟩
          · simp only [List.mem_singleton] at hx1
            subst hx1
            exact ⟨{ name := x, caseless := c }, by simp, hx2⟩

theorem appendModImp_nil_eq_keepNew (up : GoString → GoString) (c : Bool)
    (names : List GoString) :
    appendModImp up [] names c =
      (keepNew up c [] names).map (fun n => { name := n, caseless := c }) := by
  rw [appendModImp_eq_keepNew up c names [] []]
  · simp
  · intro n; simp

theorem keepNew_length_le (up : GoString → GoString) (c : Bool) (names : List GoString) :
    ∀ earlier, (keepNew up c earlier names).length ≤ names.length := by
  induction names with
  | nil => intro earlier; simp [keepNew]
  | cons n rest ih =>
    intro earlier
    rw [keepNew]
    split
    · have := ih (earlier ++ [n]); simp only [List.length_cons]; omega
    · have := ih (earlier ++ [n]); simp only [List.length_cons]; omega

theorem keepNew_of_distinct (up : GoString → GoString) (c : Bool) (names : List GoString) :
    ∀ earlier, (∀ x ∈ earlier, ∀ n ∈ names, ¬ sameUnder up c x n) →
      names.Pairwise (fun x y => ¬ sameUnder up c x y) →
      keepNew up c earlier names = names := by
  induction names with
  | nil => intro earlier _ _; simp [keepNew]
  | cons n rest ih =>
    intro earlier he hp
    rw [keepNew]
    rw [List.pairwise_cons] at hp
    have hx : ¬ ∃ x ∈ earlier, sameUnder up c x n := by
      rintro ⟨x, hx1, hx2⟩
      exact he x hx1 n (List.mem_cons_self _ _) hx2
    rw [if_neg hx, ih (earlier ++ [n])]
    · intro x hx1 k hk
      rcases List.mem_append.1 hx1 with hx1 | hx1
      · exact he x hx1 k (List.mem_cons_of_mem _ hk)
      · simp only [List.mem_singleton] at hx1
        subst hx1
        exact hp.1 k hk
    · exact hp.2

theorem walkImportTable_eq (data : List Byte) (va : Nat) (d : List Byte) :
    walkImportTable data va d = (idtBeforeTerminator d).filterMap (entryName data va) := by
  induction d using walkImportTable.induct data va with
  | case1 b0 b1 b2 b3 _ _ _ _ _ _ _ _ b12 b13 b14 b15 _ _ _ _ rest thunk h =>
    simp only [walkImportTable, idtBeforeTerminator, idtEntries]
    simp [thunk] at h
    simp [List.takeWhile_cons, h]
  | case2 b0 b1 b2 b3 _ _ _ _ _ _ _ _ b12 b13 b14 b15 _ _ _ _ rest thunk h name m hm ih =>
    simp only [walkImportTable, idtBeforeTerminator, idtEntries]
    simp only [thunk] at h
    simp only [name, Int.ofNat_eq_coe] at hm
    simp only [idtBeforeTerminator] at ih
    simp [List.takeWhile_cons, h, hm, ih, entryName]
  | case3 b0 b1 b2 b3 _ _ _ _ _ _ _ _ b12 b13 b14 b15 _ _ _ _ rest thunk h name hm ih =>
    simp only [walkImportTable, idtBeforeTerminator, idtEntries]
    simp only [thunk] at h
    simp only [name, Int.ofNat_eq_coe] at hm
    simp only [idtBeforeTerminator] at ih
    simp [List.takeWhile_cons, h, hm, ih, entryName]
  | case4 t ht =>
    rw [walkImportTable.eq_2 data va t ht, idtBeforeTerminator, idtEntries.eq_2 t ht]
    rfl

theorem keepNew_nil_of_distinct (up : GoString → GoString) (c : Bool) (names : List GoString)
    (hp : names.Pairwise (fun x y => ¬ sameUnder up c x y)) :
    keepNew up c [] names = names :=
  keepNew_of_distinct up c names [] (by intro x hx; cases hx) hp

/-- C9, as stated, fails: the import directory table of `d/dup.exe` has two
entries before the entry with a zero original first thunk, both pointing to
the name `A`, and the extraction into the empty registry returns the single
entry `A`. -/
theorem appendImportsPE_drops_duplicates :
    (idtBeforeTerminator (dupSectionData.drop (sub32 4096 4096))).length = 2 ∧
    appendImportsPE asciiUpper fsDup [] (str "d/dup.exe") =
      .ok (true, [{ name := str "A", caseless := true }]) :=
  ⟨by rfl, by rfl⟩

/-- C9, amended: for a PE file with an optional header, at least two data
directories, a section holding the import directory's virtual address, section
data that can be read and that reaches the import directory's offset, the
extraction into the empty registry succeeds and returns, in table order, one
`ModuleName` for every table entry before the first entry with a zero original
first thunk whose name `getStringPE` can read and equals, upper-cased, the name
of no earlier such entry; every returned `ModuleName` is case-insensitive;
there are at most as many as entries, and exactly one per entry, with the
entry's name, when every name can be read and the upper-cased names are
pairwise different. -/
theorem appendImportsPE_registry (up : GoString → GoString) (fs : GoString → FileInfo)
    (path : GoString) (f : PEFile) (oh : OptionalHeader) (ds : Section) (data : List Byte)
    (hopen : (fs path).peOpen = some f) (hoh : f.OptionalHeader = some oh)
    (hdd : 2 ≤ oh.NumberOfRvaAndSizes)
    (hds : findSection (oh.DataDirectory IMAGE_DIRECTORY_ENTRY_IMPORT).VirtualAddress
      f.Sections = some ds)
    (hdata : ds.Data = some data)
    (hoff : sub32 (oh.DataDirectory IMAGE_DIRECTORY_ENTRY_IMPORT).VirtualAddress
      ds.VirtualAddress ≤ data.length) :
    ∃ entries : List ImportDescriptor,
      entries = idtBeforeTerminator (data.drop
        (sub32 (oh.DataDirectory IMAGE_DIRECTORY_ENTRY_IMPORT).VirtualAddress
          ds.VirtualAddress)) ∧
      appendImportsPE up fs [] path =
        .ok (true, (keepNew up true [] (entries.filterMap (entryName data ds.VirtualAddress))).map
          (fun n => { name := n, caseless := true })) ∧
      (keepNew up true [] (entries.filterMap (entryName data ds.VirtualAddress))).length
        ≤ entries.length ∧
      ((∀ e ∈ entries, ∃ n, entryName data ds.VirtualAddress e = some n) →
        ((entries.filterMap (entryName data ds.VirtualAddress)).map up).Nodup →
        (keepNew up true [] (entries.filterMap (entryName data ds.VirtualAddress))).map some =
          entries.map (entryName data ds.VirtualAddress)) := by
  refine ⟨_, rfl, ?_, ?_, ?_⟩
  · have hlt : ¬ oh.NumberOfRvaAndSizes < IMAGE_DIRECTORY_ENTRY_IMPORT.val + 1 := by
      have : IMAGE_DIRECTORY_ENTRY_IMPORT.val = 1 := rfl
      omega
    have hgt : ¬ sub32 (oh.DataDirectory IMAGE_DIRECTORY_ENTRY_IMPORT).VirtualAddress
        ds.VirtualAddress > data.length := by omega
    rw [appendImportsPE_eq, hopen]
    simp only [peImports, hoh, hlt, if_false, hds, hdata, hgt, walkImportTable_eq,
      appendModImp_nil_eq_keepNew]
  · exact le_trans (keepNew_length_le up true _ []) (List.length_filterMap_le _ _)
  · intro hall hnd
    rw [keepNew_nil_of_distinct]
    · generalize idtBeforeTerminator (data.drop
        (sub32 (oh.DataDirectory IMAGE_DIRECTORY_ENTRY_IMPORT).VirtualAddress
          ds.VirtualAddress)) = entries at hall
      clear hnd
      induction entries with
      | nil => rfl
      | cons e rest ih =>
        obtain ⟨n, hn⟩ := hall e (List.mem_cons_self _ _)
        rw [List.filterMap_cons, hn, List.map_cons, List.map_cons, hn,
          ih (fun x hx => hall x (List.mem_cons_of_mem _ hx))]
    · rw [List.Nodup, List.pairwise_map] at hnd
      exact hnd

/-- C9, amended, at a concrete input: the file `d/dup.exe`, whose two entries
name `A`, yields the single case-insensitive entry `A`. -/
theorem appendImportsPE_registry_witness :
    ∃ entries : List ImportDescriptor,
      entries = idtBeforeTerminator (dupSectionData.drop (sub32 4096 4096)) ∧
      appendImportsPE asciiUpper fsDup [] (str "d/dup.exe") =
        .ok (true, (keepNew asciiUpper true []
          (entries.filterMap (entryName dupSectionData 4096))).map
          (fun n => { name := n, caseless := true })) ∧
      (keepNew asciiUpper true [] (entries.filterMap (entryName dupSectionData 4096))).length
        ≤ entries.length ∧
      ((∀ e ∈ entries, ∃ n, entryName dupSectionData 4096 e = some n) →
        ((entries.filterMap (entryName dupSectionData 4096)).map asciiUpper).Nodup →
        (keepNew asciiUpper true [] (entries.filterMap (entryName dupSectionData 4096))).map some =
          entries.map (entryName dupSectionData 4096)) :=
  appendImportsPE_registry asciiUpper fsDup (str "d/dup.exe") dupPE
    { is64 := false, NumberOfRvaAndSizes := 16,
      DataDirectory := fun i =>
        if i = 1 then { VirtualAddress := 4096, Size := 60 }
        else { VirtualAddress := 0, Size := 0 } }
    { VirtualAddress := 4096, VirtualSize := 4096, Data := some dupSectionData }
    dupSectionData (by rfl) (by rfl) (by decide) (by rfl) (by rfl) (by decide)

/-- C10, as stated, fails: the dynamic section of `d/dup.so` lists two
`DT_NEEDED` names, `libc.so.6` twice, and the extraction into the empty
registry returns one entry. -/
theorem appendImportsELF_drops_duplicates :
    (fsDup (str "d/dup.so")).elfOpen =
      some { ImportedLibraries := some [str "libc.so.6", str "libc.so.6"] } ∧
    appendImportsELF asciiUpper fsDup [] (str "d/dup.so") =
      (true, [{ name := str "libc.so.6", caseless := false }]) :=
  ⟨by rfl, by rfl⟩

/-- C10, amended: for an ELF file whose dynamic section lists the `DT_NEEDED`
names `names`, the extraction into the empty registry succeeds and returns, in
file order, one case-sensitive `ModuleName` for every name that equals no
earlier name of the list (`appendIfNew` removes the repetitions): at most
`N` entries, and exactly the `N` names when they are pairwise different. -/
theorem appendImportsELF_registry (up : GoString → GoString) (fs : GoString → FileInfo)
    (path : GoString) (names : List GoString)
    (h : (fs path).elfOpen = some { ImportedLibraries := some names }) :
    appendImportsELF up fs [] path =
      (true, (keepNew up false [] names).map (fun n => { name := n, caseless := false })) ∧
    (keepNew up false [] names).length ≤ names.length ∧
    (names.Nodup → keepNew up false [] names = names) := by
  refine ⟨?_, keepNew_length_le up false names [], ?_⟩
  · simp only [appendImportsELF, h, appendModImp_nil_eq_keepNew]
  · intro hnd
    exact keepNew_nil_of_distinct up false names hnd

/-- C10, amended, at a concrete input: the file `d/dup.so`. -/
theorem appendImportsELF_registry_witness :
    appendImportsELF asciiUpper fsDup [] (str "d/dup.so") =
      (true, (keepNew asciiUpper false [] [str "libc.so.6", str "libc.so.6"]).map
        (fun n => { name := n, caseless := false })) ∧
    (keepNew asciiUpper false [] [str "libc.so.6", str "libc.so.6"]).length ≤ 2 ∧
    ([str "libc.so.6", str "libc.so.6"].Nodup →
      keepNew asciiUpper false [] [str "libc.so.6", str "libc.so.6"] =
        [str "libc.so.6", str "libc.so.6"]) :=
  appendImportsELF_registry asciiUpper fsDup (str "d/dup.so")
    [str "libc.so.6", str "libc.so.6"] (by rfl)

/-! ## Removing an unmatched import (C7) -/

theorem fsAB_case_sensitive : ∀ p ∈ [str "d/A", str "d/B"],
    ∀ (ns : List GoString) (c1 : Bool), importsOf fsAB p = .ok (ns, c1) → c1 = false := by
  intro p hp names c1 h
  simp only [List.mem_cons, List.mem_singleton, List.not_mem_nil, or_false] at hp
  rcases hp with rfl | rfl
  · have e : importsOf fsAB (str "d/A") = .ok ([str "B"], false) := by rfl
    rw [e] at h
    simp only [Except.ok.injEq, Prod.mk.injEq] at h
    exact h.2.symm
  · have e : importsOf fsAB (str "d/B") = .ok ([], false) := by rfl
    rw [e] at h
    simp only [Except.ok.injEq, Prod.mk.injEq] at h
    exact h.2.symm


theorem hasMatch_congr (up base : GoString → GoString) (files : List GoString)
    (m : ModuleName) (n : GoString) (c : Bool) (hc : m.caseless = c)
    (hs : sameUnder up c m.name n) :
    hasMatch up base files m = hasMatch up base files { name := n, caseless := c } := by
  unfold hasMatch
  rw [firstMatch_congr up base files m n c hc hs]

theorem appendIfNew_sim (up base : GoString → GoString) (files : List GoString) (c : Bool)
    (wl1 wl2 : Registry) (n : GoString)
    (hc1 : ∀ e ∈ wl1, e.caseless = c) (hc2 : ∀ e ∈ wl2, e.caseless = c)
    (ha : wl1.filter (hasMatch up base files) = wl2.filter (hasMatch up base files)) :
    ∃ t1 t2, appendIfNew up wl1 n c = wl1 ++ t1 ∧ appendIfNew up wl2 n c = wl2 ++ t2 ∧
      t1.filter (hasMatch up base files) = t2.filter (hasMatch up base files) ∧
      (∀ e ∈ t1, e.caseless = c) ∧ (∀ e ∈ t2, e.caseless = c) := by
  have transfer : ∀ (a b : Registry), (∀ e ∈ a, e.caseless = c) →
      a.filter (hasMatch up base files) = b.filter (hasMatch up base files) →
      hasMatch up base files { name := n, caseless := c } = true →
      (∃ m ∈ a, sameUnder up c m.name n) → ∃ m ∈ b, sameUnder up c m.name n := by
    intro a b hca hab hP ⟨m, hm, hs⟩
    have hPm : hasMatch up base files m = true := by
      rw [hasMatch_congr up base files m n c (hca m hm) hs]; exact hP
    have : m ∈ b.filter (hasMatch up base files) := by
      rw [← hab]; exact List.mem_filter.2 ⟨hm, hPm⟩
    exact ⟨m, (List.mem_filter.1 this).1, hs⟩
  have hnew : ∀ e ∈ [ModuleName.mk n c], e.caseless = c := by
    intro e he
    simp only [List.mem_singleton] at he
    rw [he]
  have hnil : ∀ e ∈ ([] : Registry), e.caseless = c := by intro e he; cases he
  by_cases hP : hasMatch up base files { name := n, caseless := c } = true
  · rcases appendIfNew_cases up wl1 n c with ⟨h1, e1⟩ | ⟨h1, e1⟩
    · have h2 := transfer wl1 wl2 hc1 ha hP h1
      exact ⟨[], [], by simp [e1], by simp [appendIfNew_of_mem up wl2 n c h2], rfl, hnil, hnil⟩
    · have h2 : ¬ ∃ m ∈ wl2, sameUnder up c m.name n :=
        fun h => h1 (transfer wl2 wl1 hc2 ha.symm hP h)
      exact ⟨_, _, e1, appendIfNew_of_not_mem up wl2 n c h2, rfl, hnew, hnew⟩
  · have hf : ([ModuleName.mk n c]).filter (hasMatch up base files) = [] := by
      simp [List.filter_cons, hP]
    rcases appendIfNew_cases up wl1 n c with ⟨_, e1⟩ | ⟨_, e1⟩ <;>
      rcases appendIfNew_cases up wl2 n c with ⟨_, e2⟩ | ⟨_, e2⟩
    · exact ⟨[], [], by simp [e1], by simp [e2], rfl, hnil, hnil⟩
    · exact ⟨[], _, by simp [e1], e2, by rw [hf]; rfl, hnil, hnew⟩
    · exact ⟨_, [], e1, by simp [e2], by rw [hf]; rfl, hnew, hnil⟩
    · exact ⟨_, _, e1, e2, rfl, hnew, hnew⟩

theorem appendModImp_sim (up base : GoString → GoString) (files : List GoString) (c : Bool)
    (names : List GoString) :
    ∀ (wl1 wl2 : Registry),
      (∀ e ∈ wl1, e.caseless = c) → (∀ e ∈ wl2, e.caseless = c) →
      wl1.filter (hasMatch up base files) = wl2.filter (hasMatch up base files) →
      ∃ t1 t2, appendModImp up wl1 names c = wl1 ++ t1 ∧
        appendModImp up wl2 names c = wl2 ++ t2 ∧
        t1.filter (hasMatch up base files) = t2.filter (hasMatch up base files) ∧
        (∀ e ∈ t1, e.caseless = c) ∧ (∀ e ∈ t2, e.caseless = c) := by
  induction names with
  | nil =>
    intro wl1 wl2 _ _ _
    refine ⟨[], [], by simp [appendModImp], by simp [appendModImp], rfl, ?_, ?_⟩
    · intro e he; cases he
    · intro e he; cases he
  | cons n rest ih =>
    intro wl1 wl2 hc1 hc2 ha
    obtain ⟨t1, t2, e1, e2, ht, hct1, hct2⟩ :=
      appendIfNew_sim up base files c wl1 wl2 n hc1 hc2 ha
    have hc1' : ∀ e ∈ wl1 ++ t1, e.caseless = c := by
      intro e he
      rcases List.mem_append.1 he with he | he
      · exact hc1 e he
      · exact hct1 e he
    have hc2' : ∀ e ∈ wl2 ++ t2, e.caseless = c := by
      intro e he
      rcases List.mem_append.1 he with he | he
      · exact hc2 e he
      · exact hct2 e he
    obtain ⟨u1, u2, f1, f2, hu, hcu1, hcu2⟩ :=
      ih (wl1 ++ t1) (wl2 ++ t2) hc1' hc2' (by rw [List.filter_append, List.filter_append, ha, ht])
    refine ⟨t1 ++ u1, t2 ++ u2, ?_, ?_, ?_, ?_, ?_⟩
    · rw [appendModImp_cons, e1, f1, List.append_assoc]
    · rw [appendModImp_cons, e2, f2, List.append_assoc]
    · rw [List.filter_append, List.filter_append, ht, hu]
    · intro e he
      rcases List.mem_append.1 he with he | he
      · exact hct1 e he
      · exact hcu1 e he
    · intro e he
      rcases List.mem_append.1 he with he | he
      · exact hct2 e he
      · exact hcu2 e he

theorem drop_filter_of_getElem? (P : ModuleName → Bool) (wl : Registry) (i : Nat)
    (m : ModuleName) (h : wl[i]? = some m) :
    (wl.drop i).filter P = (if P m then [m] else []) ++ (wl.drop (i + 1)).filter P := by
  rw [drop_of_getElem? wl i m h, List.filter_cons]
  split <;> simp

theorem drop_succ_append (wl t : Registry) (i : Nat) (m : ModuleName)
    (h : wl[i]? = some m) : (wl ++ t).drop (i + 1) = wl.drop (i + 1) ++ t := by
  rcases List.getElem?_eq_some.1 h with ⟨hi, _⟩
  exact List.drop_append_of_le_length (by omega)

theorem hasMatch_of_none (up base : GoString → GoString) (files : List GoString)
    (m : ModuleName) (h : firstMatch up base files m = none) :
    hasMatch up base files m = false := by
  simp [hasMatch, h]

theorem hasMatch_of_some (up base : GoString → GoString) (files : List GoString)
    (m : ModuleName) (p : GoString) (h : firstMatch up base files m = some p) :
    hasMatch up base files m = true := by
  simp [hasMatch, h]

/-- Two runs over worklists of one case policy whose matched entries agree
(all of them, and the ones still to process) return the same. -/
theorem listDepsLoop_sim (up base : GoString → GoString) (fs : GoString → FileInfo)
    (files : List GoString) (c : Bool)
    (hfiles : ∀ p ∈ files, ∀ (names : List GoString) (c1 : Bool),
      importsOf fs p = .ok (names, c1) → c1 = c) (N : Nat) :
    ∀ (fuel1 fuel2 : Nat) (wl1 wl2 : Registry) (i1 i2 : Nat) (deps : List GoString)
      (r1 r2 : Except Err Resolved),
      fuel1 + fuel2 ≤ N →
      (∀ e ∈ wl1, e.caseless = c) → (∀ e ∈ wl2, e.caseless = c) →
      wl1.filter (hasMatch up base files) = wl2.filter (hasMatch up base files) →
      (wl1.drop i1).filter (hasMatch up base files) =
        (wl2.drop i2).filter (hasMatch up base files) →
      listDepsLoop up base fs files fuel1 wl1 i1 deps = some r1 →
      listDepsLoop up base fs files fuel2 wl2 i2 deps = some r2 →
      resultDeps r1 = resultDeps r2 := by
  induction N with
  | zero =>
    intro fuel1 fuel2 wl1 wl2 i1 i2 deps r1 r2 hN _ _ _ _ h1 _
    have : fuel1 = 0 := by omega
    subst this
    simp [listDepsLoop] at h1
  | succ N ih =>
    intro fuel1 fuel2 wl1 wl2 i1 i2 deps r1 r2 hN hc1 hc2 ha hb h1 h2
    cases fuel1 with
    | zero => simp [listDepsLoop] at h1
    | succ f1 =>
    cases fuel2 with
    | zero => simp [listDepsLoop] at h2
    | succ f2 =>
    have h1' := h1
    have h2' := h2
    rw [listDepsLoop_succ] at h1' h2'
    -- the second run passes an entry without a match
    have adv2 : ∀ m2, wl2[i2]? = some m2 → firstMatch up base files m2 = none →
        resultDeps r1 = resultDeps r2 := by
      intro m2 hm2 hf2
      rw [hm2] at h2'
      simp only [hf2] at h2'
      refine ih (f1 + 1) f2 wl1 wl2 i1 (i2 + 1) deps r1 r2 (by omega) hc1 hc2 ha ?_ h1 h2'
      rw [hb, drop_filter_of_getElem? _ wl2 i2 m2 hm2, hasMatch_of_none _ _ _ _ hf2]
      simp
    cases hm1 : wl1[i1]? with
    | none =>
      rw [hm1] at h1'
      simp only [Option.some.injEq] at h1'
      have hd1 : wl1.drop i1 = [] :=
        List.drop_eq_nil_of_le (List.getElem?_eq_none_iff.1 hm1)
      cases hm2 : wl2[i2]? with
      | none =>
        rw [hm2] at h2'
        simp only [Option.some.injEq] at h2'
        rw [← h1', ← h2']
        rfl
      | some m2 =>
        cases hf2 : firstMatch up base files m2 with
        | none => exact adv2 m2 hm2 hf2
        | some p2 =>
          rw [hd1, drop_filter_of_getElem? _ wl2 i2 m2 hm2,
            hasMatch_of_some _ _ _ _ _ hf2] at hb
          simp at hb
    | some m1 =>
      rw [hm1] at h1'
      simp only at h1'
      cases hf1 : firstMatch up base files m1 with
      | none =>
        rw [hf1] at h1'
        simp only at h1'
        refine ih f1 (f2 + 1) wl1 wl2 (i1 + 1) i2 deps r1 r2 (by omega) hc1 hc2 ha ?_ h1' h2
        rw [← hb, drop_filter_of_getElem? _ wl1 i1 m1 hm1, hasMatch_of_none _ _ _ _ hf1]
        simp
      | some path =>
        rw [hf1] at h1'
        simp only at h1'
        rw [drop_filter_of_getElem? _ wl1 i1 m1 hm1, hasMatch_of_some _ _ _ _ _ hf1] at hb
        cases hm2 : wl2[i2]? with
        | none =>
          have hd2 : wl2.drop i2 = [] :=
            List.drop_eq_nil_of_le (List.getElem?_eq_none_iff.1 hm2)
          rw [hd2] at hb
          simp at hb
        | some m2 =>
          cases hf2 : firstMatch up base files m2 with
          | none =>
            exact adv2 m2 hm2 hf2
          | some p2 =>
            rw [drop_filter_of_getElem? _ wl2 i2 m2 hm2, hasMatch_of_some _ _ _ _ _ hf2] at hb
            simp only [if_true, List.singleton_append, List.cons.injEq] at hb
            obtain ⟨hmm, hrest⟩ := hb
            subst hmm
            rw [hf1] at hf2
            simp only [Option.some.injEq] at hf2
            subst hf2
            rw [hm2] at h2'
            simp only [hf1] at h2'
            cases hi : importsOf fs path with
            | error e =>
              rw [hi] at h1' h2'
              simp only [Option.some.injEq] at h1' h2'
              rw [← h1', ← h2']
            | ok x =>
              obtain ⟨names, c1⟩ := x
              have hcc : c1 = c := hfiles path (firstMatch_mem _ _ _ _ _ hf1) names c1 hi
              subst hcc
              rw [hi] at h1' h2'
              simp only at h1' h2'
              obtain ⟨t1, t2, e1, e2, ht, hct1, hct2⟩ :=
                appendModImp_sim up base files c1 names wl1 wl2 hc1 hc2 ha
              rw [e1] at h1'
              rw [e2] at h2'
              refine ih f1 f2 (wl1 ++ t1) (wl2 ++ t2) (i1 + 1) (i2 + 1) (deps ++ [path]) r1 r2
                (by omega) ?_ ?_ ?_ ?_ h1' h2'
              · intro e he
                rcases List.mem_append.1 he with he | he
                · exact hc1 e he
                · exact hct1 e he
              · intro e he
                rcases List.mem_append.1 he with he | he
                · exact hc2 e he
                · exact hct2 e he
              · rw [List.filter_append, List.filter_append, ha, ht]
              · rw [drop_succ_append wl1 t1 i1 m1 hm1, drop_succ_append wl2 t2 i2 m1 hm2,
                  List.filter_append, List.filter_append, hrest, ht]

theorem filterMap_without (f : ModuleName → Option GoString) (m : ModuleName)
    (hm : f m = none) (l : Registry) :
    l.filterMap f = (l.filter (fun e => decide (e ≠ m))).filterMap f := by
  induction l with
  | nil => rfl
  | cons e rest ih =>
    by_cases he : e = m
    · subst he
      simp [List.filterMap_cons, hm, ih]
    · simp [List.filterMap_cons, List.filter_cons, he, ih]

/-- C7, as stated, fails: over the pool `[d/A, d/dup.exe]` the case-sensitive import
`a` matches no candidate; with it the result is `[d/dup.exe]` (the import
`A` of `d/dup.exe`, case-insensitive, is taken for present), without
it the result is `[d/dup.exe, d/A]`. -/
theorem removing_unmatched_import_changes_result :
    firstMatch asciiUpper unixBase [str "d/A", str "d/dup.exe"]
      { name := str "a", caseless := false } = none ∧
    Option.map resultDeps (listDepsFromDir asciiUpper unixBase fsUnmatched 3
      [{ name := str "a", caseless := false }, { name := str "dup.exe", caseless := false }]
      [str "d/A", str "d/dup.exe"]) = some (.ok [str "d/dup.exe"]) ∧
    Option.map resultDeps (listDepsFromDir asciiUpper unixBase fsUnmatched 3
      [{ name := str "dup.exe", caseless := false }]
      [str "d/A", str "d/dup.exe"]) = some (.ok [str "d/dup.exe", str "d/A"]) :=
  ⟨by rfl, by rfl, by rfl⟩

/-- C7, amended: for every import list, pool and file system, an import of
the initial list that matches no candidate contributes no path to the result;
and when every import of the initial list and every pool file's imports carry
one and the same case policy, resolving the list with that import removed ends
(given enough iterations) and yields the same resolved-dependency list, or the
same panic. -/
theorem removing_unmatched_import_same_policy (up base : GoString → GoString)
    (fs : GoString → FileInfo) (files : List GoString)
    (pre post : Registry) (m : ModuleName)
    (hun : firstMatch up base files m = none) :
    (∀ (fuel : Nat) (r : Resolved),
      listDepsFromDir up base fs fuel (pre ++ m :: post) files = some (.ok r) →
      r.deps = (r.modules.filter (fun e => decide (e ≠ m))).filterMap
        (firstMatch up base files)) ∧
    (∀ c : Bool,
      (∀ e ∈ pre ++ m :: post, e.caseless = c) →
      (∀ p ∈ files, ∀ (names : List GoString) (c1 : Bool),
        importsOf fs p = .ok (names, c1) → c1 = c) →
      (∀ (fuel1 fuel2 : Nat) (r1 r2 : Except Err Resolved),
        listDepsFromDir up base fs fuel1 (pre ++ m :: post) files = some r1 →
        listDepsFromDir up base fs fuel2 (pre ++ post) files = some r2 →
        resultDeps r1 = resultDeps r2) ∧
      (∃ (fuel : Nat) (r1 r2 : Except Err Resolved),
        listDepsFromDir up base fs fuel (pre ++ m :: post) files = some r1 ∧
        listDepsFromDir up base fs fuel (pre ++ post) files = some r2 ∧
        resultDeps r1 = resultDeps r2)) := by
  constructor
  · intro fuel r h
    obtain ⟨_, hd⟩ := listDepsLoop_ok_spec up base fs files fuel _ 0 [] r h
    simp only [List.drop_zero, List.nil_append] at hd
    rw [hd]
    exact filterMap_without _ m hun _
  · intro c hmods hfiles
    have hc2 : ∀ e ∈ pre ++ post, e.caseless = c := by
      intro e he
      apply hmods e
      rcases List.mem_append.1 he with he | he
      · exact List.mem_append_left _ he
      · exact List.mem_append_right _ (List.mem_cons_of_mem _ he)
    have ha : (pre ++ m :: post).filter (hasMatch up base files) =
        (pre ++ post).filter (hasMatch up base files) := by
      simp [List.filter_append, List.filter_cons, hasMatch_of_none _ _ _ _ hun]
    have hsim : ∀ (fuel1 fuel2 : Nat) (r1 r2 : Except Err Resolved),
        listDepsFromDir up base fs fuel1 (pre ++ m :: post) files = some r1 →
        listDepsFromDir up base fs fuel2 (pre ++ post) files = some r2 →
        resultDeps r1 = resultDeps r2 := by
      intro fuel1 fuel2 r1 r2 h1 h2
      exact listDepsLoop_sim up base fs files c hfiles (fuel1 + fuel2) fuel1 fuel2 _ _ 0 0 []
        r1 r2 (le_refl _) hmods hc2 ha (by simpa using ha) h1 h2
    refine ⟨hsim, ?_⟩
    let fuel := (pre ++ m :: post).length + (poolNames fs files).dedup.length + 1
    have t1 := listDepsLoop_terminates up base fs files (pre ++ m :: post) fuel [] 0 []
      (by simp) (by simp) (by simp) (by simp [fuel])
    have t2 := listDepsLoop_terminates up base fs files (pre ++ post) fuel [] 0 []
      (by simp) (by simp) (by simp) (by simp [fuel])
    simp only [List.append_nil] at t1 t2
    obtain ⟨r1, h1⟩ := t1
    obtain ⟨r2, h2⟩ := t2
    exact ⟨fuel, r1, r2, h1, h2, hsim fuel fuel r1 r2 h1 h2⟩

/-- C7, amended, at concrete inputs: over the mixed-policy pool
`[d/A, d/dup.exe]` the unmatched import `a` contributes no path to the result
`[d/dup.exe]`; and over the pool `[d/A, d/B]` of ELF files the case-sensitive import
`zzz` matches nothing, and the imports `[zzz, A]` and `[A]` resolve to
the same list. -/
theorem removing_unmatched_import_same_policy_witness :
    [str "d/dup.exe"] =
      (List.filter (fun e => decide (e ≠ { name := str "a", caseless := false }))
        [{ name := str "a", caseless := false },
         { name := str "dup.exe", caseless := false }]).filterMap
        (firstMatch asciiUpper unixBase [str "d/A", str "d/dup.exe"]) ∧
    Option.map resultDeps (listDepsFromDir asciiUpper unixBase fsAB 4
      ([] ++ { name := str "zzz", caseless := false } ::
        [{ name := str "A", caseless := false }]) [str "d/A", str "d/B"]) =
    Option.map resultDeps (listDepsFromDir asciiUpper unixBase fsAB 3
      ([] ++ [{ name := str "A", caseless := false }]) [str "d/A", str "d/B"]) :=
  ⟨(removing_unmatched_import_same_policy asciiUpper unixBase fsUnmatched
      [str "d/A", str "d/dup.exe"] [] [{ name := str "dup.exe", caseless := false }]
      { name := str "a", caseless := false } (by rfl)).1 3
      { deps := [str "d/dup.exe"],
        modules := [{ name := str "a", caseless := false },
                    { name := str "dup.exe", caseless := false }] }
      (by rfl),
   congrArg some
    (((removing_unmatched_import_same_policy asciiUpper unixBase fsAB [str "d/A", str "d/B"]
      [] [{ name := str "A", caseless := false }] { name := str "zzz", caseless := false }
      (by rfl)).2 false (by decide) fsAB_case_sensitive).1 4 3
      (.ok { deps := [str "d/A", str "d/B"],
             modules := [{ name := str "zzz", caseless := false },
                         { name := str "A", caseless := false },
                         { name := str "B", caseless := false }] })
      (.ok { deps := [str "d/A", str "d/B"],
             modules := [{ name := str "A", caseless := false },
                         { name := str "B", caseless := false }] })
      (by rfl) (by rfl))⟩

/-! ## PE files without an optional header or an import directory (C11, C15) -/

/-- C11, as stated, fails: the regular file `d/obj.o` does not open as ELF,
opens as PE and has no optional header; `appendImportsPE` returns false and
`appendImports` panics with `Unknown module type`. -/
theorem appendImports_no_optional_header_fails :
    (fsPE (str "d/obj.o")).isRegular = true ∧
    (fsPE (str "d/obj.o")).elfOpen = none ∧
    ((fsPE (str "d/obj.o")).peOpen.map (fun f => f.OptionalHeader.isNone)) = some true ∧
    appendImportsPE asciiUpper fsPE [] (str "d/obj.o") = .ok (false, []) ∧
    appendImports asciiUpper fsPE [] (str "d/obj.o") =
      .error (Err.unknownModuleType (str "d/obj.o")) :=
  ⟨by rfl, by rfl, by rfl, by rfl, by rfl⟩

/-- C11, amended: for every regular file that opens as a PE but has no
optional header and does not parse as ELF, `appendImportsPE` returns false
and leaves the registry unchanged, and `appendImports` panics with
`Unknown module type`. -/
theorem appendImports_no_optional_header (up : GoString → GoString)
    (fs : GoString → FileInfo) (imp : Registry) (path : GoString) (f : PEFile)
    (hreg : isFile fs path = true)
    (helf : (appendImportsELF up fs imp path).1 = false)
    (hopen : (fs path).peOpen = some f) (hoh : f.OptionalHeader = none) :
    appendImportsPE up fs imp path = .ok (false, imp) ∧
    appendImports up fs imp path = .error (Err.unknownModuleType path) := by
  have hpe : appendImportsPE up fs imp path = .ok (false, imp) := by
    simp only [appendImportsPE, hopen, hoh]
  refine ⟨hpe, ?_⟩
  rcases he : appendImportsELF up fs imp path with ⟨b, imp1⟩
  rw [he] at helf
  simp only at helf
  subst helf
  have := appendImportsELF_false up fs imp imp1 path he
  subst this
  simp only [appendImports, hreg, he, hpe, Bool.not_true, Bool.false_eq_true, if_false]

/-- C11, amended, at a concrete input: the file `d/obj.o`. -/
theorem appendImports_no_optional_header_witness :
    appendImportsPE asciiUpper fsPE [] (str "d/obj.o") = .ok (false, []) ∧
    appendImports asciiUpper fsPE [] (str "d/obj.o") =
      .error (Err.unknownModuleType (str "d/obj.o")) :=
  appendImports_no_optional_header asciiUpper fsPE [] (str "d/obj.o")
    { OptionalHeader := none, Sections := [] } (by rfl) (by rfl) (by rfl) (by rfl)

/-- C15: for every PE file that has an optional header whose data-directory
count (`NumberOfRvaAndSizes`) is at most 1, `appendImportsPE` returns true and
leaves the registry unchanged, whatever the data-directory entries, the
sections and their bytes contain. -/
theorem appendImportsPE_few_directories (up : GoString → GoString)
    (fs : GoString → FileInfo) (imp : Registry) (path : GoString) (f : PEFile)
    (oh : OptionalHeader) (hopen : (fs path).peOpen = some f)
    (hoh : f.OptionalHeader = some oh) (hdd : oh.NumberOfRvaAndSizes ≤ 1) :
    appendImportsPE up fs imp path = .ok (true, imp) := by
  have hlt : oh.NumberOfRvaAndSizes < IMAGE_DIRECTORY_ENTRY_IMPORT.val + 1 := by
    have : IMAGE_DIRECTORY_ENTRY_IMPORT.val = 1 := rfl
    omega
  simp only [appendImportsPE, hopen, hoh, hlt, if_true]

/-- C15 at a concrete input: the file `d/one.exe` has one data directory and
a section that holds an import table; the registry stays as it is. -/
theorem appendImportsPE_few_directories_witness :
    appendImportsPE asciiUpper fsPE [{ name := str "x", caseless := false }] (str "d/one.exe") =
      .ok (true, [{ name := str "x", caseless := false }]) :=
  appendImportsPE_few_directories asciiUpper fsPE _ (str "d/one.exe")
    { OptionalHeader := some
        { is64 := true, NumberOfRvaAndSizes := 1,
          DataDirectory := fun _ => { VirtualAddress := 4096, Size := 40 } },
      Sections := [{ VirtualAddress := 4096, VirtualSize := 4096,
                     Data := some dupSectionData }] }
    { is64 := true, NumberOfRvaAndSizes := 1,
      DataDirectory := fun _ => { VirtualAddress := 4096, Size := 40 } }
    (by rfl) (by rfl) (by decide)

/-! ## Two insertions of names equal ignoring case (C13) -/

/-- C13: for every registry `r` and names `n1`, `n2` with equal upper-cased
forms, inserting `n2` case-insensitively after `n1` changes nothing; starting
from the empty registry the result is the single entry with the first-inserted
spelling `n1`. -/
theorem appendIfNew_twice_caseless (up : GoString → GoString) (r : Registry)
    (n1 n2 : GoString) (h : up n1 = up n2) :
    appendIfNew up (appendIfNew up r n1 true) n2 true = appendIfNew up r n1 true ∧
    appendIfNew up (appendIfNew up [] n1 true) n2 true = [{ name := n1, caseless := true }] ∧
    (appendIfNew up (appendIfNew up [] n1 true) n2 true).length = 1 := by
  have key : ∀ r0 : Registry,
      appendIfNew up (appendIfNew up r0 n1 true) n2 true = appendIfNew up r0 n1 true := by
    intro r0
    apply appendIfNew_of_mem
    obtain ⟨m, hm, hs⟩ := appendIfNew_covers up r0 n1 true
    exact ⟨m, hm, sameUnder_trans up true _ _ _ hs h⟩
  have hone : appendIfNew up [] n1 true = [{ name := n1, caseless := true }] := by
    rw [appendIfNew_of_not_mem]
    · rfl
    · rintro ⟨m, hm, _⟩; cases hm
  refine ⟨key r, ?_, ?_⟩
  · rw [key, hone]
  · rw [key, hone]; rfl

/-- C13 at the input of the specification: `KERNEL32.DLL` then
`kernel32.dll` leaves `[KERNEL32.DLL]`. -/
theorem appendIfNew_twice_caseless_witness :
    appendIfNew asciiUpper (appendIfNew asciiUpper [] (str "KERNEL32.DLL") true)
      (str "kernel32.dll") true = [{ name := str "KERNEL32.DLL", caseless := true }] :=
  (appendIfNew_twice_caseless asciiUpper [] (str "KERNEL32.DLL") (str "kernel32.dll")
    (by decide)).2.1

/-! ## The slice of the section data (C17) -/

/-- C17 at the failing input: the import directory of `d/short.exe` lies at
virtual address 4100, inside the virtual range of the section at 4096, whose
raw data is empty; the slice expression `data[4:]` is out of range and
`appendImportsPE`, and with it `appendImports`, stops with a runtime error. -/
theorem appendImportsPE_slice_out_of_range :
    findSection 4100 [{ VirtualAddress := 4096, VirtualSize := 4096, Data := some [] }] =
      some { VirtualAddress := 4096, VirtualSize := 4096, Data := some [] } ∧
    appendImportsPE asciiUpper fsPE [] (str "d/short.exe") = .error Err.runtime ∧
    appendImports asciiUpper fsPE [] (str "d/short.exe") = .error Err.runtime ∧
    Err.isMessage Err.runtime = false :=
  ⟨by rfl, by rfl, by rfl, by rfl⟩

/-! ## `getStringPE` (C12) -/

theorem scanStringPE_eq_some (l : List Byte) :
    ∀ s : GoString, scanStringPE l = some s ↔
      ∃ e : Nat, l[e]? = some 0 ∧ (∀ k : Nat, k < e → l[k]? ≠ some 0) ∧ s = l.take e := by
  induction l with
  | nil => intro s; simp [scanStringPE]
  | cons b rest ih =>
    intro s
    rw [scanStringPE]
    by_cases hb : b = 0
    · subst hb
      simp only [if_true, Option.some.injEq]
      constructor
      · intro h
        exact ⟨0, by simp, by intro k hk; omega, by simp [h.symm]⟩
      · rintro ⟨e, _, h2, h3⟩
        cases e with
        | zero => simp [h3]
        | succ e => exact absurd (by simp) (h2 0 (by omega))
    · rw [if_neg hb]
      constructor
      · intro h
        cases hs : scanStringPE rest with
        | none => rw [hs] at h; simp at h
        | some s1 =>
          rw [hs] at h
          simp only [Option.map_some', Option.some.injEq] at h
          obtain ⟨e, h1, h2, h3⟩ := (ih s1).1 hs
          refine ⟨e + 1, by simpa using h1, ?_, by rw [← h, h3]; simp⟩
          intro k hk
          cases k with
          | zero => simpa using hb
          | succ k => simpa using h2 k (by omega)
      · rintro ⟨e, h1, h2, h3⟩
        cases e with
        | zero => simp at h1; exact absurd h1 hb
        | succ e =>
          have := (ih (rest.take e)).2 ⟨e, by simpa using h1,
            fun k hk => by simpa using h2 (k + 1) (by omega), rfl⟩
          rw [this, h3]
          simp

theorem getStringPE_eq_some (sect : List Byte) (start : Int) (s : GoString) :
    getStringPE sect start = some s ↔
      0 ≤ start ∧ start < (sect.length : Int) ∧
      ∃ e : Nat, start ≤ (e : Int) ∧ sect[e]? = some 0 ∧
        (∀ k : Nat, start ≤ (k : Int) → k < e → sect[k]? ≠ some 0) ∧
        s = (sect.drop start.toNat).take (e - start.toNat) := by
  unfold getStringPE
  by_cases hr : start < 0 ∨ start ≥ (sect.length : Int)
  · rw [if_pos hr]
    constructor
    · intro h; cases h
    · rintro ⟨h1, h2, _⟩; omega
  · rw [if_neg hr, scanStringPE_eq_some]
    have h0 : 0 ≤ start := by omega
    have hlt : start < (sect.length : Int) := by omega
    obtain ⟨n, rfl⟩ := Int.eq_ofNat_of_zero_le h0
    simp only [Int.toNat_ofNat, Nat.cast_nonneg, true_and, Nat.cast_le, hlt]
    constructor
    · rintro ⟨e, h1, h2, h3⟩
      refine ⟨n + e, by omega, ?_, ?_, ?_⟩
      · simpa [List.getElem?_drop] using h1
      · intro k hk hke
        have := h2 (k - n) (by omega)
        rw [List.getElem?_drop] at this
        have e1 : n + (k - n) = k := by omega
        rwa [e1] at this
      · rw [h3]; congr 1; omega
    · rintro ⟨e, h1, h2, h3, h4⟩
      refine ⟨e - n, ?_, ?_, h4⟩
      · rw [List.getElem?_drop]
        have e1 : n + (e - n) = e := by omega
        rwa [e1]
      · intro k hk
        rw [List.getElem?_drop]
        exact h3 (n + k) (by omega) (by omega)

/-- C12: `getStringPE` returns `ok = true` if and only if
`0 <= start < len(section)` and some byte at an index `>= start` is zero; when
ok, the returned string is the bytes from `start` up to but not including the
first zero byte at an index `>= start`; when not ok for a table entry (with a
nonzero original first thunk), the walk adds no name for that entry and
continues with the next entry. -/
theorem getStringPE_contract (sect : List Byte) (start : Int) :
    ((getStringPE sect start).isSome = true ↔
      0 ≤ start ∧ start < (sect.length : Int) ∧
        ∃ k : Nat, start ≤ (k : Int) ∧ sect[k]? = some 0) ∧
    (∀ s : GoString, getStringPE sect start = some s →
      ∃ e : Nat, start ≤ (e : Int) ∧ sect[e]? = some 0 ∧
        (∀ k : Nat, start ≤ (k : Int) → k < e → sect[k]? ≠ some 0) ∧
        s = (sect.drop start.toNat).take (e - start.toNat)) ∧
    (∀ (va : Nat) (b0 b1 b2 b3 b4 b5 b6 b7 b8 b9 b10 b11 b12 b13 b14 b15 b16 b17 b18 b19 : Byte)
      (rest : List Byte),
      le32 b0 b1 b2 b3 ≠ 0 →
      start = Int.ofNat (sub32 (le32 b12 b13 b14 b15) va) →
      getStringPE sect start = none →
      walkImportTable sect va
        (b0 :: b1 :: b2 :: b3 :: b4 :: b5 :: b6 :: b7 :: b8 :: b9 :: b10 :: b11 :: b12 ::
          b13 :: b14 :: b15 :: b16 :: b17 :: b18 :: b19 :: rest) =
        walkImportTable sect va rest) := by
  refine ⟨?_, ?_, ?_⟩
  · constructor
    · intro h
      obtain ⟨s, hs⟩ := Option.isSome_iff_exists.1 h
      obtain ⟨h1, h2, e, h3, h4, _, _⟩ := (getStringPE_eq_some sect start s).1 hs
      exact ⟨h1, h2, e, h3, h4⟩
    · rintro ⟨h1, h2, k, h3, h4⟩
      -- the first zero byte at or after `start`
      have hex : ∃ e : Nat, start ≤ (e : Int) ∧ sect[e]? = some 0 := ⟨k, h3, h4⟩
      classical
      let e := Nat.find hex
      have he : start ≤ (e : Int) ∧ sect[e]? = some 0 := Nat.find_spec hex
      have hmin : ∀ j : Nat, start ≤ (j : Int) → j < e → sect[j]? ≠ some 0 := by
        intro j hj hje hz
        exact Nat.find_min hex hje ⟨hj, hz⟩
      have := (getStringPE_eq_some sect start _).2 ⟨h1, h2, e, he.1, he.2, hmin, rfl⟩
      rw [this]; rfl
  · intro s hs
    obtain ⟨_, _, e, h3, h4, h5, h6⟩ := (getStringPE_eq_some sect start s).1 hs
    exact ⟨e, h3, h4, h5, h6⟩
  · intro va b0 b1 b2 b3 b4 b5 b6 b7 b8 b9 b10 b11 b12 b13 b14 b15 b16 b17 b18 b19 rest
      hthunk hstart hnone
    rw [hstart] at hnone
    rw [walkImportTable]
    simp only [hthunk, if_false, hnone]

/-- C12 at concrete inputs: in the section `dupSectionData` the string at
offset 60 is `A`, and no string starts at offset 62, the length of the
section, so an entry with name RVA `va + 62` is passed over. -/
theorem getStringPE_contract_witness :
    getStringPE dupSectionData 60 = some (str "A") ∧
    (∃ e : Nat, (60 : Int) ≤ (e : Int) ∧ dupSectionData[e]? = some 0 ∧
      (∀ k : Nat, (60 : Int) ≤ (k : Int) → k < e → dupSectionData[k]? ≠ some 0) ∧
      str "A" = (dupSectionData.drop (60 : Int).toNat).take (e - (60 : Int).toNat)) ∧
    walkImportTable dupSectionData 4096 (idtEntryBytes 62 16 ++ idtEntryBytes 60 16) =
      walkImportTable dupSectionData 4096 (idtEntryBytes 60 16) :=
  ⟨by rfl,
   (getStringPE_contract dupSectionData 60).2.1 (str "A") (by rfl),
   (getStringPE_contract dupSectionData (Int.ofNat (sub32 (le32 62 16 0 0) 4096))).2.2 4096
     1 0 0 0 0 0 0 0 0 0 0 0 62 16 0 0 0 0 0 0 (idtEntryBytes 60 16)
     (by decide) rfl (by rfl)⟩

/-! ## The name offset of a table entry (C18) -/

theorem le32_lt (b0 b1 b2 b3 : Byte) : le32 b0 b1 b2 b3 < 4294967296 := by
  have h0 := b0.isLt
  have h1 := b1.isLt
  have h2 := b2.isLt
  have h3 := b3.isLt
  unfold le32
  omega

theorem sub32_of_le (r v : Nat) (hr : r < 4294967296) (h : v ≤ r) : sub32 r v = r - v := by
  unfold sub32 u32
  omega

theorem sub32_of_lt (r v : Nat) (hv : v < 4294967296) (h : r < v) :
    sub32 r v = 4294967296 - (v - r) := by
  unfold sub32 u32
  omega

theorem walkImportTable_entry (data : List Byte) (va : Nat)
    (b0 b1 b2 b3 b4 b5 b6 b7 b8 b9 b10 b11 b12 b13 b14 b15 b16 b17 b18 b19 : Byte)
    (rest : List Byte) (hthunk : le32 b0 b1 b2 b3 ≠ 0) :
    walkImportTable data va
      (b0 :: b1 :: b2 :: b3 :: b4 :: b5 :: b6 :: b7 :: b8 :: b9 :: b10 :: b11 :: b12 ::
        b13 :: b14 :: b15 :: b16 :: b17 :: b18 :: b19 :: rest) =
      (getStringPE data (Int.ofNat (sub32 (le32 b12 b13 b14 b15) va))).toList ++
        walkImportTable data va rest := by
  rw [walkImportTable]
  simp only [hthunk, if_false]
  cases getStringPE data (Int.ofNat (sub32 (le32 b12 b13 b14 b15) va)) <;> rfl

/-- C18, as stated, fails: in the file `d/wrap.exe` the section lies at
virtual address `v = 4294967256` and the one table entry has name RVA
`r = 0 < v`; the subtraction wraps to `2^32 - (v - r) = 40`, which is inside
the 42 bytes of the section, and the entry contributes the name `A` read at
offset 40. -/
theorem wrapped_name_offset_in_bounds :
    le32 0 0 0 0 < 4294967256 ∧
    sub32 (le32 0 0 0 0) 4294967256 = 40 ∧
    walkImportTable (idtEntryBytes 0 0 ++ List.replicate 20 0 ++ [65, 0]) 4294967256
      (idtEntryBytes 0 0 ++ List.replicate 20 0 ++ [65, 0]) = [str "A"] ∧
    appendImportsPE asciiUpper fsPE [] (str "d/wrap.exe") =
      .ok (true, [{ name := str "A", caseless := true }]) :=
  ⟨by decide, by rfl, by rfl, by rfl⟩

/-- C18, amended: for every table entry visited by the walk (nonzero original
first thunk), with name RVA `r` (bytes 12..15, little-endian) and section
virtual address `v`: when `r >= v` the name is read from the section's raw
data at offset `r - v`; when `r < v` it is read at the wrapped offset
`2^32 - (v - r)`, and the entry contributes no name when the raw data has at
most `2^32 - (v - r)` bytes. -/
theorem walkImportTable_name_offset (data : List Byte) (va : Nat)
    (b0 b1 b2 b3 b4 b5 b6 b7 b8 b9 b10 b11 b12 b13 b14 b15 b16 b17 b18 b19 : Byte)
    (rest : List Byte) (hva : va < 4294967296) (hthunk : le32 b0 b1 b2 b3 ≠ 0) :
    (va ≤ le32 b12 b13 b14 b15 →
      walkImportTable data va
        (b0 :: b1 :: b2 :: b3 :: b4 :: b5 :: b6 :: b7 :: b8 :: b9 :: b10 :: b11 :: b12 ::
          b13 :: b14 :: b15 :: b16 :: b17 :: b18 :: b19 :: rest) =
        (getStringPE data (Int.ofNat (le32 b12 b13 b14 b15 - va))).toList ++
          walkImportTable data va rest) ∧
    (le32 b12 b13 b14 b15 < va →
      walkImportTable data va
        (b0 :: b1 :: b2 :: b3 :: b4 :: b5 :: b6 :: b7 :: b8 :: b9 :: b10 :: b11 :: b12 ::
          b13 :: b14 :: b15 :: b16 :: b17 :: b18 :: b19 :: rest) =
        (getStringPE data (Int.ofNat (4294967296 - (va - le32 b12 b13 b14 b15)))).toList ++
          walkImportTable data va rest ∧
      (data.length ≤ 4294967296 - (va - le32 b12 b13 b14 b15) →
        walkImportTable data va
          (b0 :: b1 :: b2 :: b3 :: b4 :: b5 :: b6 :: b7 :: b8 :: b9 :: b10 :: b11 :: b12 ::
            b13 :: b14 :: b15 :: b16 :: b17 :: b18 :: b19 :: rest) =
          walkImportTable data va rest)) := by
  have hr := le32_lt b12 b13 b14 b15
  have hw := walkImportTable_entry data va b0 b1 b2 b3 b4 b5 b6 b7 b8 b9 b10 b11 b12 b13 b14
    b15 b16 b17 b18 b19 rest hthunk
  constructor
  · intro h
    rw [hw, sub32_of_le _ _ hr h]
  · intro h
    rw [hw, sub32_of_lt _ _ hva h]
    refine ⟨rfl, ?_⟩
    intro hlen
    have hnone : getStringPE data
        (Int.ofNat (4294967296 - (va - le32 b12 b13 b14 b15))) = none := by
      unfold getStringPE
      rw [if_pos]
      right
      simp only [Int.ofNat_eq_coe, ge_iff_le, Nat.cast_le]
      exact hlen
    rw [hnone]
    rfl

/-- C18, amended, at concrete inputs: section at 4096, an entry with name RVA
4156 (offset 60, the string `A`), and an entry with name RVA 0 (wrapped offset
`2^32 - 4096`, beyond the 62 bytes of the section). -/
theorem walkImportTable_name_offset_witness :
    walkImportTable dupSectionData 4096 (idtEntryBytes 60 16) =
      (getStringPE dupSectionData (Int.ofNat (le32 60 16 0 0 - 4096))).toList ++
        walkImportTable dupSectionData 4096 [] ∧
    walkImportTable dupSectionData 4096 (idtEntryBytes 0 0) =
      walkImportTable dupSectionData 4096 [] :=
  ⟨(walkImportTable_name_offset dupSectionData 4096 1 0 0 0 0 0 0 0 0 0 0 0 60 16 0 0 0 0 0 0 []
      (by decide) (by decide)).1 (by decide),
   ((walkImportTable_name_offset dupSectionData 4096 1 0 0 0 0 0 0 0 0 0 0 0 0 0 0 0 0 0 0 0 []
      (by decide) (by decide)).2 (by decide)).2 (by decide)⟩

/-! ## Paths are not deduplicated (C14) -/

theorem count_filterMap (f : ModuleName → Option GoString) (p : GoString) (l : Registry) :
    (l.filterMap f).count p = l.countP (fun e => decide (f e = some p)) := by
  induction l with
  | nil => rfl
  | cons e rest ih =>
    rw [List.filterMap_cons, List.countP_cons]
    cases hf : f e with
    | none => simp [ih]
    | some q =>
      simp only [List.count_cons, ih, Option.some.injEq, beq_iff_eq]
      by_cases hq : q = p <;> simp [hq]

theorem two_le_countP (P : ModuleName → Bool) (l : Registry) (i j : Nat) (a b : ModuleName)
    (hij : i < j) (ha : l[i]? = some a) (hb : l[j]? = some b) (hPa : P a = true)
    (hPb : P b = true) : 2 ≤ l.countP P := by
  have h1 : l = l.take i ++ l.drop i := (List.take_append_drop i l).symm
  have h2 : l.drop i = a :: l.drop (i + 1) := drop_of_getElem? l i a ha
  have h3 : b ∈ l.drop (i + 1) := by
    apply List.getElem?_mem (n := j - (i + 1))
    rw [List.getElem?_drop]
    have : i + 1 + (j - (i + 1)) = j := by omega
    rw [this, hb]
  have h4 : 0 < (l.drop (i + 1)).countP P := List.countP_pos_iff.2 ⟨b, h3, hPb⟩
  rw [h1, List.countP_append, h2, List.countP_cons, hPa]
  simp only [if_true]
  omega

/-- C14: the resolver does not deduplicate paths. When `listDepsFromDir`
succeeds, every path occurs in the result once for each worklist position
whose first matching candidate it is; so two entries at different positions
with the same first match put the path into the result at least twice. Such a
worklist is reachable through `appendIfNew`: the case-insensitive `A.DLL`
inserted before the case-sensitive `a.dll`, with the pool file `d/a.dll`,
gives the result `[d/a.dll, d/a.dll]`. -/
theorem deps_not_deduplicated (up base : GoString → GoString) (fs : GoString → FileInfo) :
    (∀ (fuel : Nat) (modules : Registry) (files : List GoString) (r : Resolved),
      listDepsFromDir up base fs fuel modules files = some (.ok r) →
      (∀ p : GoString, r.deps.count p =
        r.modules.countP (fun e => decide (firstMatch up base files e = some p))) ∧
      (∀ (i j : Nat) (a b : ModuleName) (p : GoString), i < j →
        modules[i]? = some a → modules[j]? = some b →
        firstMatch up base files a = some p → firstMatch up base files b = some p →
        2 ≤ r.deps.count p)) ∧
    (buildRegistry asciiUpper [(str "A.DLL", true), (str "a.dll", false)] =
        [{ name := str "A.DLL", caseless := true }, { name := str "a.dll", caseless := false }] ∧
      listDepsFromDir asciiUpper unixBase fsMixed 3
        (buildRegistry asciiUpper [(str "A.DLL", true), (str "a.dll", false)])
        [str "d/a.dll"] =
      some (.ok { deps := [str "d/a.dll", str "d/a.dll"],
                  modules := [{ name := str "A.DLL", caseless := true },
                              { name := str "a.dll", caseless := false }] })) := by
  refine ⟨?_, by rfl, by rfl⟩
  intro fuel modules files r h
  obtain ⟨⟨t, ht⟩, hd⟩ := listDepsLoop_ok_spec up base fs files fuel modules 0 [] r h
  simp only [List.drop_zero, List.nil_append] at hd
  have hcount : ∀ p : GoString, r.deps.count p =
      r.modules.countP (fun e => decide (firstMatch up base files e = some p)) := by
    intro p
    rw [hd]
    exact count_filterMap _ p _
  refine ⟨hcount, ?_⟩
  intro i j a b p hij ha hb hfa hfb
  rw [hcount p]
  apply two_le_countP _ r.modules i j a b hij
  · rw [ht]; exact getElem?_append_of_some _ _ _ _ ha
  · rw [ht]; exact getElem?_append_of_some _ _ _ _ hb
  · simp [hfa]
  · simp [hfb]

/-- C14 at a concrete input: the worklist `[A.DLL (case-insensitive), a.dll
(case-sensitive)]` over the pool `[d/a.dll]`: the path is in the result twice. -/
theorem deps_not_deduplicated_witness :
    2 ≤ List.count (str "d/a.dll") [str "d/a.dll", str "d/a.dll"] :=
  ((deps_not_deduplicated asciiUpper unixBase fsMixed).1 3
    [{ name := str "A.DLL", caseless := true }, { name := str "a.dll", caseless := false }]
    [str "d/a.dll"]
    { deps := [str "d/a.dll", str "d/a.dll"],
      modules := [{ name := str "A.DLL", caseless := true },
                  { name := str "a.dll", caseless := false }] }
    (by rfl)).2 0 1 _ _ (str "d/a.dll") (by decide) (by rfl) (by rfl) (by rfl) (by rfl)

/-! ## Registries and runs of a single case policy (C19, C20) -/

theorem buildRegistry_from (up : GoString → GoString) (c : Bool) (names : List GoString) :
    ∀ r : Registry,
      (names.map (fun n => (n, c))).foldl (fun r op => appendIfNew up r op.1 op.2) r =
        appendModImp up r names c := by
  induction names with
  | nil => intro r; rfl
  | cons n rest ih => intro r; simp only [List.map_cons, List.foldl_cons, appendModImp_cons, ih]

theorem buildRegistry_eq_keepNew (up : GoString → GoString) (c : Bool)
    (names : List GoString) :
    buildRegistry up (names.map (fun n => (n, c))) =
      (keepNew up c [] names).map (fun n => { name := n, caseless := c }) := by
  unfold buildRegistry
  rw [buildRegistry_from, appendModImp_nil_eq_keepNew]

theorem keepNew_pairwise (up : GoString → GoString) (c : Bool) (names : List GoString) :
    ∀ earlier : List GoString,
      (keepNew up c earlier names).Pairwise (fun x y => ¬ sameUnder up c x y) ∧
      ∀ x ∈ keepNew up c earlier names, ∀ y ∈ earlier, ¬ sameUnder up c y x := by
  induction names with
  | nil => intro earlier; simp [keepNew]
  | cons n rest ih =>
    intro earlier
    obtain ⟨ih1, ih2⟩ := ih (earlier ++ [n])
    rw [keepNew]
    by_cases hx : ∃ x ∈ earlier, sameUnder up c x n
    · rw [if_pos hx]
      exact ⟨ih1, fun x hx1 y hy => ih2 x hx1 y (List.mem_append_left _ hy)⟩
    · rw [if_neg hx]
      refine ⟨List.pairwise_cons.2 ⟨fun x hx1 => ih2 x hx1 n (by simp), ih1⟩, ?_⟩
      intro x hx1 y hy
      rcases List.mem_cons.1 hx1 with rfl | hx1
      · exact fun h => hx ⟨y, hy, h⟩
      · exact ih2 x hx1 y (List.mem_append_left _ hy)

theorem keepNew_first_seen (up : GoString → GoString) (c : Bool) (names : List GoString) :
    ∀ (earlier : List GoString) (n x : GoString),
      (¬ ∃ y ∈ earlier, sameUnder up c y n) →
      names.find? (fun y => decide (sameUnder up c y n)) = some x →
      x ∈ keepNew up c earlier names := by
  induction names with
  | nil => intro earlier n x _ h; simp at h
  | cons n0 rest ih =>
    intro earlier n x hne hfind
    rw [List.find?_cons] at hfind
    rw [keepNew]
    by_cases hs : sameUnder up c n0 n
    · simp only [hs, decide_True, Option.some.injEq] at hfind
      subst hfind
      have hx : ¬ ∃ y ∈ earlier, sameUnder up c y n0 := by
        rintro ⟨y, hy, hyn⟩
        exact hne ⟨y, hy, sameUnder_trans up c _ _ _ hyn hs⟩
      rw [if_neg hx]
      exact List.mem_cons_self _ _
    · simp only [hs, decide_False] at hfind
      have hne1 : ¬ ∃ y ∈ earlier ++ [n0], sameUnder up c y n := by
        rintro ⟨y, hy, hyn⟩
        rcases List.mem_append.1 hy with hy | hy
        · exact hne ⟨y, hy, hyn⟩
        · simp only [List.mem_singleton] at hy
          subst hy
          exact hs hyn
      have := ih (earlier ++ [n0]) n x hne1 hfind
      split
      · exact this
      · exact List.mem_cons_of_mem _ this

/-- C19: for every flag `c` and every sequence of names, the registry built
from the empty registry by `appendIfNew` calls that all use the flag `c` has
entries whose names are pairwise different under `c`, every entry carries the
flag `c`, and every inserted name is represented by an entry equal to it under
`c`, namely the first name of the sequence that equals it under `c` (the
first-seen spelling). -/
theorem single_policy_registry (up : GoString → GoString) (c : Bool)
    (names : List GoString) :
    ((buildRegistry up (names.map (fun n => (n, c)))).map (fun e => e.name)).Pairwise
      (fun x y => ¬ sameUnder up c x y) ∧
    (∀ e ∈ buildRegistry up (names.map (fun n => (n, c))), e.caseless = c) ∧
    (∀ n ∈ names, ∃ e ∈ buildRegistry up (names.map (fun n => (n, c))),
      sameUnder up c e.name n ∧
      names.find? (fun y => decide (sameUnder up c y n)) = some e.name) := by
  rw [buildRegistry_eq_keepNew]
  refine ⟨?_, ?_, ?_⟩
  · rw [List.map_map]
    have : ((fun e : ModuleName => e.name) ∘ fun n => ({ name := n, caseless := c } : ModuleName))
        = id := by
      funext n; rfl
    rw [this, List.map_id]
    exact (keepNew_pairwise up c names []).1
  · intro e he
    obtain ⟨n, _, rfl⟩ := List.mem_map.1 he
    rfl
  · intro n hn
    have hsome : (names.find? (fun y => decide (sameUnder up c y n))).isSome = true := by
      rw [List.find?_isSome]
      exact ⟨n, hn, by simpa using sameUnder_of_eq up c n⟩
    obtain ⟨x, hx⟩ := Option.isSome_iff_exists.1 hsome
    have hmem := keepNew_first_seen up c names [] n x (by simp) hx
    have hsame : sameUnder up c x n := by simpa using List.find?_some hx
    exact ⟨{ name := x, caseless := c }, List.mem_map.2 ⟨x, hmem, rfl⟩, hsame, hx⟩

/-- C19 at a concrete input: after `KERNEL32.DLL`, `kernel32.dll` and
`user32.dll`, all case-insensitive, the name `kernel32.dll` is represented by
the entry `KERNEL32.DLL`, the first-seen spelling. -/
theorem single_policy_registry_witness :
    ∃ e ∈ buildRegistry asciiUpper
        ([str "KERNEL32.DLL", str "kernel32.dll", str "user32.dll"].map (fun n => (n, true))),
      sameUnder asciiUpper true e.name (str "kernel32.dll") ∧
      [str "KERNEL32.DLL", str "kernel32.dll", str "user32.dll"].find?
        (fun y => decide (sameUnder asciiUpper true y (str "kernel32.dll"))) = some e.name :=
  (single_policy_registry asciiUpper true
    [str "KERNEL32.DLL", str "kernel32.dll", str "user32.dll"]).2.2
    (str "kernel32.dll") (by decide)

theorem appendIfNew_single_policy (up : GoString → GoString) (c : Bool) (wl : Registry)
    (n : GoString) (hc : ∀ e ∈ wl, e.caseless = c)
    (hp : (wl.map (fun e => e.name)).Pairwise (fun x y => ¬ sameUnder up c x y)) :
    (∀ e ∈ appendIfNew up wl n c, e.caseless = c) ∧
    ((appendIfNew up wl n c).map (fun e => e.name)).Pairwise
      (fun x y => ¬ sameUnder up c x y) := by
  rcases appendIfNew_cases up wl n c with ⟨_, h⟩ | ⟨hno, h⟩
  · rw [h]; exact ⟨hc, hp⟩
  · rw [h]
    constructor
    · intro e he
      rcases List.mem_append.1 he with he | he
      · exact hc e he
      · simp only [List.mem_singleton] at he
        rw [he]
    · rw [List.map_append, List.pairwise_append]
      refine ⟨hp, by simp, ?_⟩
      intro x hx y hy
      simp only [List.map_cons, List.map_nil, List.mem_singleton] at hy
      subst hy
      obtain ⟨e, he, rfl⟩ := List.mem_map.1 hx
      exact fun hs => hno ⟨e, he, hs⟩

theorem appendModImp_single_policy (up : GoString → GoString) (c : Bool)
    (names : List GoString) :
    ∀ wl : Registry, (∀ e ∈ wl, e.caseless = c) →
      (wl.map (fun e => e.name)).Pairwise (fun x y => ¬ sameUnder up c x y) →
      (∀ e ∈ appendModImp up wl names c, e.caseless = c) ∧
      ((appendModImp up wl names c).map (fun e => e.name)).Pairwise
        (fun x y => ¬ sameUnder up c x y) := by
  induction names with
  | nil => intro wl hc hp; exact ⟨hc, hp⟩
  | cons n rest ih =>
    intro wl hc hp
    obtain ⟨hc1, hp1⟩ := appendIfNew_single_policy up c wl n hc hp
    rw [appendModImp_cons]
    exact ih _ hc1 hp1

theorem listDepsLoop_single_policy (up base : GoString → GoString)
    (fs : GoString → FileInfo) (files : List GoString) (c : Bool)
    (hfiles : ∀ p ∈ files, ∀ (names : List GoString) (c1 : Bool),
      importsOf fs p = .ok (names, c1) → c1 = c) (fuel : Nat) :
    ∀ (wl : Registry) (i : Nat) (deps : List GoString) (r : Resolved),
      (∀ e ∈ wl, e.caseless = c) →
      (wl.map (fun e => e.name)).Pairwise (fun x y => ¬ sameUnder up c x y) →
      listDepsLoop up base fs files fuel wl i deps = some (.ok r) →
      (∀ e ∈ r.modules, e.caseless = c) ∧
      (r.modules.map (fun e => e.name)).Pairwise (fun x y => ¬ sameUnder up c x y) := by
  induction fuel with
  | zero => intro wl i deps r _ _ h; simp [listDepsLoop] at h
  | succ fuel ih =>
    intro wl i deps r hc hp h
    rw [listDepsLoop_succ] at h
    cases hm : wl[i]? with
    | none =>
      rw [hm] at h
      simp only [Option.some.injEq, Except.ok.injEq] at h
      subst h
      exact ⟨hc, hp⟩
    | some m =>
      rw [hm] at h
      simp only at h
      cases hf : firstMatch up base files m with
      | none => rw [hf] at h; exact ih _ _ _ _ hc hp h
      | some path =>
        rw [hf] at h
        simp only at h
        cases hi : importsOf fs path with
        | error e => rw [hi] at h; simp at h
        | ok x =>
          obtain ⟨names, c1⟩ := x
          have hcc : c1 = c := hfiles path (firstMatch_mem _ _ _ _ _ hf) names c1 hi
          subst hcc
          rw [hi] at h
          simp only at h
          obtain ⟨hc1, hp1⟩ := appendModImp_single_policy up c1 names wl hc hp
          exact ih _ _ _ _ hc1 hp1 h

/-- C20: when every import carries the same case policy `c` (the initial list
was built by `appendIfNew` calls with the flag `c`, and every pool file's
imports are parsed with the flag `c`), the result of a successful
`listDepsFromDir` contains no path twice. -/
theorem deps_nodup_single_policy (up base : GoString → GoString)
    (fs : GoString → FileInfo) (files : List GoString) (c : Bool)
    (names : List GoString) (fuel : Nat) (r : Resolved)
    (hfiles : ∀ p ∈ files, ∀ (ns : List GoString) (c1 : Bool),
      importsOf fs p = .ok (ns, c1) → c1 = c)
    (h : listDepsFromDir up base fs fuel (buildRegistry up (names.map (fun n => (n, c))))
      files = some (.ok r)) :
    r.deps.Nodup := by
  have hb : buildRegistry up (names.map (fun n => (n, c))) = appendModImp up [] names c := by
    unfold buildRegistry
    rw [buildRegistry_from]
  obtain ⟨hc0, hp0⟩ := appendModImp_single_policy up c names [] (by simp) (by simp)
  rw [hb] at h
  obtain ⟨hc, hp⟩ := listDepsLoop_single_policy up base fs files c hfiles fuel _ 0 [] r hc0 hp0 h
  obtain ⟨_, hd⟩ := listDepsLoop_ok_spec up base fs files fuel _ 0 [] r h
  simp only [List.drop_zero, List.nil_append] at hd
  rw [hd, List.Nodup, List.pairwise_filterMap]
  rw [List.pairwise_map] at hp
  refine hp.imp_of_mem ?_
  intro a b ha hbm hab p hpa q hqb hpq
  subst hpq
  have ma : matchesMod up base a p := by
    simpa using List.find?_some (Option.mem_def.1 hpa)
  have mb : matchesMod up base b p := by
    simpa using List.find?_some (Option.mem_def.1 hqb)
  unfold matchesMod at ma mb
  rw [hc a ha] at ma
  rw [hc b hbm] at mb
  exact hab (sameUnder_trans up c _ _ _ (sameUnder_symm up c _ _ ma) mb)

/-- C20 at a concrete input: the names `A`, `A`, `B` inserted case-sensitively
and resolved over the pool `[d/A, d/B]` of ELF files give `[d/A, d/B]`. -/
theorem deps_nodup_single_policy_witness :
    [str "d/A", str "d/B"].Nodup :=
  deps_nodup_single_policy asciiUpper unixBase fsAB [str "d/A", str "d/B"] false
    [str "A", str "A", str "B"] 3
    { deps := [str "d/A", str "d/B"],
      modules := [{ name := str "A", caseless := false },
                  { name := str "B", caseless := false }] }
    fsAB_case_sensitive (by rfl)

/-! ## The recursion ceiling of `walkDir` (C16) -/

mutual
theorem walkDir_below_root (join : GoString → GoString → GoString) :
    ∀ (node : Node) (files : List GoString) (path : GoString) (level : Nat),
      noDots node → 1 ≤ level →
      (level + height node ≤ 1024 →
        walkDir join node files path level = .ok (files ++ regularFiles join node path)) ∧
      (1025 ≤ level + height node →
        walkDir join node files path level = .error WalkErr.tooManyLevels)
  | .missing, files, path, level, _, hl => by
    rw [walkDir]
    simp only [height, regularFiles, List.append_nil, add_zero]
    constructor
    · intro h; rw [if_neg (by omega), if_neg (by omega)]
    · intro h; rw [if_pos (by omega)]
  | .file, files, path, level, _, hl => by
    rw [walkDir]
    simp only [height, regularFiles, add_zero]
    constructor
    · intro h; rw [if_neg (by omega)]
    · intro h; rw [if_pos (by omega)]
  | .other, files, path, level, _, hl => by
    rw [walkDir]
    simp only [height, regularFiles, List.append_nil, add_zero]
    constructor
    · intro h; rw [if_neg (by omega), if_neg (by omega)]
    · intro h; rw [if_pos (by omega)]
  | .dir readErr entries, files, path, level, hnd, hl => by
    have hnd1 : noDotsIn entries := by simpa [noDots] using hnd
    rw [walkDir]
    simp only [height, regularFiles]
    have hroot : ¬ (readErr = true ∧ level = 0 ∧ entries.length = 0) := by
      rintro ⟨_, h0, _⟩; omega
    constructor
    · intro h
      rw [if_neg (by omega), if_neg hroot]
      exact (walkEntries_spec join entries files path level hnd1 (by omega)).1 h
    · intro h
      by_cases hlev : level > 1024
      · rw [if_pos hlev]
      · rw [if_neg hlev, if_neg hroot]
        exact (walkEntries_spec join entries files path level hnd1 (by omega)).2 h
theorem walkEntries_spec (join : GoString → GoString → GoString) :
    ∀ (entries : List (GoString × Node)) (files : List GoString) (path : GoString)
      (level : Nat), noDotsIn entries → level ≤ 1024 →
      (level + heightEntries entries ≤ 1024 →
        walkEntries join entries files path level =
          .ok (files ++ regularFilesIn join entries path)) ∧
      (1025 ≤ level + heightEntries entries →
        walkEntries join entries files path level = .error WalkErr.tooManyLevels)
  | [], files, path, level, _, hlev => by
    rw [walkEntries]
    simp only [heightEntries, regularFilesIn, List.append_nil, add_zero]
    constructor
    · intro _; trivial
    · intro h; omega
  | (name, n) :: rest, files, path, level, hnd, hlev => by
    simp only [noDotsIn] at hnd
    obtain ⟨hd1, hd2, hdn, hdr⟩ := hnd
    have ihn := walkDir_below_root join n files (join path name) (level + 1) hdn (by omega)
    rw [walkEntries]
    simp only [heightEntries, regularFilesIn]
    have hdot : ¬ (name = [46] ∨ name = [46, 46]) := by
      rintro (h | h)
      · exact hd1 h
      · exact hd2 h
    rw [if_neg hdot]
    constructor
    · intro h
      have h1 : level + 1 + height n ≤ 1024 := by
        have := le_max_left (height n + 1) (heightEntries rest)
        omega
      have h2 : level + heightEntries rest ≤ 1024 := by
        have := le_max_right (height n + 1) (heightEntries rest)
        omega
      rw [ihn.1 h1]
      simp only
      rw [(walkEntries_spec join rest _ path level hdr hlev).1 h2, List.append_assoc]
    · intro h
      by_cases hn : 1025 ≤ level + 1 + height n
      · rw [ihn.2 hn]
      · rw [ihn.1 (by omega)]
        simp only
        refine (walkEntries_spec join rest _ path level hdr hlev).2 ?_
        rcases max_cases (height n + 1) (heightEntries rest) with ⟨hm, _⟩ | ⟨hm, _⟩
        · rw [hm] at h; omega
        · rw [hm] at h; exact h
end

theorem height_chain (n : Nat) : height (chain n) = n := by
  induction n with
  | zero => rfl
  | succ n ih => simp [chain, height, heightEntries, ih]

theorem noDots_chain (n : Nat) : noDots (chain n) := by
  induction n with
  | zero => simp [chain, noDots]
  | succ n ih => simp [chain, noDots, noDotsIn, ih]

/-- C16: for every directory tree given as a root to `listFilesFromDir` (what
the operating system shows at the root path, the root at level 0): if some
entry lies deeper than the recursion ceiling (the deepest entry lies at a
level of 1025 or more) the traversal fails with
`Too many directory recursion levels`, and if the deepest entry lies exactly
at level 1024 the traversal succeeds and returns the tree's regular files. -/
theorem listFilesFromDir_ceiling (join : GoString → GoString → GoString)
    (stat : GoString → Node) (path : GoString) (hpath : path ≠ [])
    (hnd : noDots (stat path)) :
    (1025 ≤ height (stat path) →
      listFilesFromDir join stat [path] = .error WalkErr.tooManyLevels) ∧
    (height (stat path) = 1024 →
      listFilesFromDir join stat [path] = .ok (regularFiles join (stat path) path)) := by
  have key : ∀ node : Node, noDots node → 1 ≤ height node →
      (1025 ≤ height node →
        walkDir join node [] path 0 = .error WalkErr.tooManyLevels) ∧
      (height node ≤ 1024 →
        walkDir join node [] path 0 = .ok (regularFiles join node path)) := by
    intro node hn hh
    cases node with
    | missing => simp [height] at hh
    | file => simp [height] at hh
    | other => simp [height] at hh
    | dir readErr entries =>
      simp only [height] at hh ⊢
      have hnd1 : noDotsIn entries := by simpa [noDots] using hn
      have hne : ¬ (readErr = true ∧ 0 = 0 ∧ entries.length = 0) := by
        rintro ⟨_, _, h0⟩
        have : entries = [] := List.length_eq_zero.1 h0
        subst this
        simp [heightEntries] at hh
      have ih := walkEntries_spec join entries [] path 0 hnd1 (by omega)
      rw [walkDir, if_neg (by omega), if_neg hne]
      simp only [regularFiles]
      constructor
      · intro h; exact ih.2 (by omega)
      · intro h
        have := ih.1 (by omega)
        simpa using this
  unfold listFilesFromDir
  rw [listFilesLoop, if_neg hpath]
  constructor
  · intro h
    rw [(key (stat path) hnd (by omega)).1 h]
  · intro h
    rw [(key (stat path) hnd (by omega)).2 (by omega)]
    simp only [listFilesLoop]

/-- C16 at concrete inputs: a chain of 1025 nested directories under the root
`r` fails with `Too many directory recursion levels`; a chain of 1024 succeeds
with the one regular file at its bottom. -/
theorem listFilesFromDir_ceiling_witness :
    listFilesFromDir joinSlash (fun _ => chain 1025) [[114]] = .error WalkErr.tooManyLevels ∧
    listFilesFromDir joinSlash (fun _ => chain 1024) [[114]] =
      .ok (regularFiles joinSlash (chain 1024) [114]) :=
  ⟨(listFilesFromDir_ceiling joinSlash (fun _ => chain 1025) [114] (by decide)
      (noDots_chain 1025)).1 (le_of_eq (height_chain 1025).symm),
   (listFilesFromDir_ceiling joinSlash (fun _ => chain 1024) [114] (by decide)
      (noDots_chain 1024)).2 (height_chain 1024)⟩

end ModuleDepend
